import Mathlib

/-!
Verification of the subscript-path cache (`src/cachearray.c` / `src/cachearray.h`)
of lua-yottadb.

The C code manages `cachearray_t` buffers: a header (depth, flags, allocation
sizes, used count), a descriptor for the variable name followed by an array of
subscript descriptors (`ydb_buffer_t`: pointer, length-used, length-allocated),
and a trailing byte region (`subsdata`) holding the concatenated text.

Shallow embedding decisions:
* A descriptor's `buf_addr` pointer is modelled as a byte offset into the
  buffer's own `subsdata` region (the pointer-fixup pass `_cachearray_updateaddr`
  recomputes those offsets as cumulative sums, exactly as the C code rewrites
  the absolute addresses).
* A Lua userdata handle is either the buffer itself (`Handle.owned`) or a
  `cachearray_dereferenced` record (`Handle.view`) holding a reference to the
  buffer plus its own `depth` and `flags` copies, mirroring the
  `array->dereference` self-pointer scheme of the C code.
* The Lua heap is a list of buffers; `lua_newuserdata` appends to it.
* `luaL_error` is modelled as `Except.error`.  Every error raised by the
  modelled operations is raised before any buffer is written, matching the C
  code, so an `Except.error` result carries no modified heap.
* Uninitialised C memory (the stack-allocated temporary in `_cachearray_create`,
  the overallocated slack of fresh buffers) is modelled by fixed default values;
  no modelled observation depends on them.
-/

namespace LuaYottadb

/-- Text is a raw byte string (subscripts may hold arbitrary bytes). -/
abbrev Bytes := List Char

/-- `ARRAY_OVERALLOC` from cachearray.c: extra descriptor slots allocated. -/
def ARRAY_OVERALLOC : Nat := 5

/-- `YDB_TYPICAL_SUBLEN` from cachearray.h: guessed text length per subscript. -/
def YDB_TYPICAL_SUBLEN : Nat := 10

/-- `YDB_MAX_SUBS`: the database engine's fixed maximum number of subscripts
per key.  It comes from the external engine header `libyottadb.h` (value 31 in
YottaDB); the cache code only relies on it being a fixed constant. -/
def YDB_MAX_SUBS : Nat := 31

/-- `YDB_LARGE_SUBSLEN` from cachearray.h. -/
def YDB_LARGE_SUBSLEN : Nat := YDB_TYPICAL_SUBLEN * YDB_MAX_SUBS

/-- `MUTABLE_BIT` from cachearray.h. -/
def MUTABLE_BIT : Nat := 1

/-- `ydb_buffer_t`: one descriptor.  `addr` is the byte offset into the owning
buffer's `subsdata` region (models the `buf_addr` pointer). -/
structure YDesc where
  addr : Nat
  len_used : Nat
  len_alloc : Nat
deriving Repr, DecidableEq

/-- Descriptor value modelling uninitialised slot memory. -/
def defaultDesc : YDesc := ⟨0, 0, 0⟩

/-- `cachearray_t`: the physical buffer.  The `dereference` self-pointer of the
C struct is represented by the `Handle` type below, so it is omitted here.
`subs` always has length `depth_alloc` and `subsdata` length `subsdata_alloc`
(the physically allocated regions, including unused slack). -/
structure CacheArray where
  depth : Nat
  flags : Nat
  subsdata_alloc : Nat
  depth_alloc : Nat
  depth_used : Nat
  varname : YDesc
  subs : List YDesc
  subsdata : List Char
deriving Repr, DecidableEq

/-- Buffer value used as the out-of-range default of heap lookups. -/
def emptyCA : CacheArray :=
  ⟨0, 0, 0, 0, 0, defaultDesc, [], []⟩

/-- Read `n` bytes at offset `o` (models reading through a descriptor pointer). -/
def extractBytes (d : List Char) (o n : Nat) : List Char :=
  (d.drop o).take n

/-- Overwrite bytes of `d` at offset `off` with `t` (models `memcpy` into the
`subsdata` region). -/
def writeBytes (d : List Char) (off : Nat) (t : List Char) : List Char :=
  d.take off ++ t ++ d.drop (off + t.length)

/-- Pad a list to length `n` with copies of `dflt` (models the uninitialised
slack of a freshly allocated region). -/
def padTo (l : List α) (n : Nat) (dflt : α) : List α :=
  l ++ List.replicate (n - l.length) dflt

/-- The element at index `i` of the contiguous descriptor block
(`&array->varname + i`, where index 0 is `varname` and index `i+1` is
`subs[i]`). -/
def elemAt (a : CacheArray) (i : Nat) : YDesc :=
  match i with
  | 0 => a.varname
  | j + 1 => a.subs.getD j defaultDesc

/-- Store a descriptor at element index `i` (0 = `varname`). -/
def setElemAt (a : CacheArray) (i : Nat) (d : YDesc) : CacheArray :=
  match i with
  | 0 => { a with varname := d }
  | j + 1 => { a with subs := a.subs.set j d }

/-- Cumulative text length of the elements before index `i`. -/
def offsetAt (a : CacheArray) : Nat → Nat
  | 0 => 0
  | i + 1 => offsetAt a i + (elemAt a i).len_used

/-- The text currently referenced by element `i` of `a`. -/
def readElemAt (a : CacheArray) (i : Nat) : Bytes :=
  extractBytes a.subsdata (elemAt a i).addr (elemAt a i).len_used

/-- `get_subslen` macro from cachearray.h: end offset of element `depth`'s text
(`buf_addr + len_used - subsdata`). -/
def get_subslen (a : CacheArray) (depth : Nat) : Nat :=
  (elemAt a depth).addr + (elemAt a depth).len_used

/-- Helper of `_cachearray_updateaddr`: rewrite the offsets of the first `n`
descriptors to the running total `ofs`, leaving the rest untouched. -/
def fixAddrs : Nat → Nat → List YDesc → List YDesc
  | _, _, [] => []
  | 0, _, l => l
  | n + 1, ofs, d :: ds => { d with addr := ofs } :: fixAddrs n (ofs + d.len_used) ds

/-- `_cachearray_updateaddr`: repoint every live descriptor into the (new)
subsdata region.  The do-while loop touches `depth+1` elements (varname plus
`depth` subscripts) where `depth` is `depth_used` clamped (by the unsigned
comparison in the C code) to `depth_alloc`. -/
def _cachearray_updateaddr (a : CacheArray) : CacheArray :=
  let depth := min a.depth_used a.depth_alloc
  { a with varname := { a.varname with addr := 0 },
           subs := fixAddrs depth a.varname.len_used a.subs }

/-- `_cachearray_realloc`: allocate a larger buffer, copy `depth_used`,
`varname` and the first `copydepth` subscript descriptors in one block, copy
`copysize` bytes of subsdata, then run the pointer-fixup pass.  `cachearray_new`
zeroes `flags`.  Note the C expression
`1 + array->depth_alloc<new_depth? array->depth_alloc: new_depth`
parses as `(1 + depth_alloc < new_depth) ? depth_alloc : new_depth`, which is
what `copydepth` reproduces. -/
def _cachearray_realloc (array : CacheArray) (new_depth new_subslen : Nat) :
    CacheArray :=
  let depth_alloc2 := new_depth + ARRAY_OVERALLOC
  let subsdata_alloc2 := new_subslen + ARRAY_OVERALLOC * YDB_TYPICAL_SUBLEN
  let copydepth := if 1 + array.depth_alloc < new_depth then array.depth_alloc
    else new_depth
  let copysize := if array.subsdata_alloc < new_subslen then array.subsdata_alloc
    else new_subslen
  _cachearray_updateaddr
    { depth := new_depth
      flags := 0
      subsdata_alloc := subsdata_alloc2
      depth_alloc := depth_alloc2
      depth_used := array.depth_used
      varname := array.varname
      subs := padTo (array.subs.take copydepth) depth_alloc2 defaultDesc
      subsdata := padTo (array.subsdata.take copysize) subsdata_alloc2 ' ' }

/-- Loop body of `_cachearray_create`: write each text (varname first, then the
subscripts) into the next element slot, reallocating first whenever the text
region would overflow.  Returns the final buffer, the total text length, and
whether a reallocation replaced the stack temporary. -/
def createLoop (depth : Nat) : List Bytes → CacheArray → Nat → Nat → Bool →
    CacheArray × Nat × Bool
  | [], a, _, subslen, realloced => (a, subslen, realloced)
  | t :: rest, a, sub, subslen, realloced =>
    let p : CacheArray × Bool :=
      if subslen + t.length > a.subsdata_alloc then
        (_cachearray_realloc a depth (subslen + t.length), true)
      else (a, realloced)
    let a2 := { p.1 with subsdata := writeBytes p.1.subsdata subslen t }
    let a3 := setElemAt a2 sub ⟨subslen, t.length, t.length⟩
    createLoop depth rest a3 (sub + 1) (subslen + t.length) p.2

/-- `_cachearray_create` (the no-preallocation path): build a buffer from a
variable name and a list of subscript texts.  The Lua-stack plumbing
(flattening an optional table argument, stringifying numbers) is outside the
model: the inputs arrive as byte strings.  The stack temporary `_tmp_array` has
`subsdata_alloc = YDB_LARGE_SUBSLEN` and `depth_alloc = depth+ARRAY_OVERALLOC`;
its other fields are uninitialised in C and modelled as zeros here (they are
overwritten, or clamped away inside `_cachearray_updateaddr`, before any
modelled observation).  If no mid-loop reallocation replaced the temporary, a
final `_cachearray_realloc` copies it into a real userdata. -/
def _cachearray_create (varname : Bytes) (subs : List Bytes) :
    Except String CacheArray :=
  let depth := subs.length
  if depth > YDB_MAX_SUBS then
    .error "maximum number of subscripts exceeded"
  else
    let a0 : CacheArray :=
      { depth := 0
        flags := 0
        subsdata_alloc := YDB_LARGE_SUBSLEN
        depth_alloc := depth + ARRAY_OVERALLOC
        depth_used := 0
        varname := defaultDesc
        subs := List.replicate (depth + ARRAY_OVERALLOC) defaultDesc
        subsdata := List.replicate YDB_LARGE_SUBSLEN ' ' }
    let r := createLoop depth (varname :: subs) a0 0 0 false
    let a := { r.1 with depth_used := depth }
    let a := if r.2.2 then a else _cachearray_realloc a depth r.2.1
    .ok { a with depth := depth }

/-- The Lua heap: buffers indexed by creation order (`lua_newuserdata`
appends). -/
abbrev Heap := List CacheArray

/-- A Lua handle: either the buffer itself (`array->dereference == array`) or a
`cachearray_dereferenced` record borrowing a buffer while overriding `depth`
and `flags`. -/
inductive Handle where
  | owned (id : Nat)
  | view (id : Nat) (depth : Nat) (flags : Nat)
deriving Repr, DecidableEq

/-- The buffer a handle ultimately resolves to (`array->dereference`). -/
def Handle.bufId : Handle → Nat
  | .owned i => i
  | .view i _ _ => i

/-- Heap lookup. -/
def getBuf (st : Heap) (i : Nat) : CacheArray :=
  st.getD i emptyCA

/-- `array->depth` as read straight off the userdata: an owned handle reads the
buffer header, a view reads its own copy. -/
def Handle.depthOf (h : Handle) (st : Heap) : Nat :=
  match h with
  | .owned i => (getBuf st i).depth
  | .view _ d _ => d

/-- `array->flags` as read straight off the userdata (`cachearray_flags` does
not dereference). -/
def Handle.flagsOf (h : Handle) (st : Heap) : Nat :=
  match h with
  | .owned i => (getBuf st i).flags
  | .view _ _ f => f

/-- State of the `cachearray_append` loop: `orig` is the buffer the handle
resolves to (including any in-place writes made before a fork), `forked` is the
replacement buffer once a fork happened, `depth`/`subslen` are the running
counters. -/
structure AppendSt where
  orig : CacheArray
  forked : Option CacheArray
  depth : Nat
  subslen : Nat
deriving Repr

/-- The buffer the loop is currently writing into. -/
def AppendSt.current (s : AppendSt) : CacheArray :=
  s.forked.getD s.orig

/-- Store back the buffer the loop is currently writing into. -/
def AppendSt.setCurrent (s : AppendSt) (a : CacheArray) : AppendSt :=
  match s.forked with
  | some _ => { s with forked := some a }
  | none => { s with orig := a }

/-- Loop of `cachearray_append`: for each text, fork (reallocate) if the target
buffer is mutable, would overflow, or holds different text at this depth; then
write the text and its descriptor into the current buffer. -/
def appendLoop (depth2 : Nat) : List Bytes → AppendSt → AppendSt
  | [], s => s
  | t :: rest, s =>
    let a := s.current
    let s1 :=
      if Nat.land a.flags MUTABLE_BIT ≠ 0
          ∨ s.subslen + t.length > a.subsdata_alloc
          ∨ s.depth ≥ a.depth_alloc
          ∨ (a.depth_used > s.depth
              ∧ (t.length ≠ (a.subs.getD s.depth defaultDesc).len_used
                 ∨ extractBytes a.subsdata (a.subs.getD s.depth defaultDesc).addr
                     t.length ≠ t)) then
        { s with forked := some (_cachearray_realloc a depth2
            (s.subslen + t.length + rest.length * YDB_TYPICAL_SUBLEN)) }
      else s
    let b := s1.current
    let b2 := { b with
      subsdata := writeBytes b.subsdata s1.subslen t
      subs := b.subs.set s1.depth ⟨s1.subslen, t.length, t.length⟩ }
    appendLoop depth2 rest
      { s1.setCurrent b2 with depth := s1.depth + 1, subslen := s1.subslen + t.length }

/-- `cachearray_append`: append texts to the handle's buffer, forking into a
fresh buffer when required; if no fork happened but the resulting depth differs
from the buffer's stored depth, return a deferred handle (view) carrying the
new depth instead of touching the buffer's depth field. -/
def cachearray_append (st : Heap) (h : Handle) (texts : List Bytes) :
    Except String (Heap × Handle) :=
  let depth := h.depthOf st
  let array := getBuf st h.bufId
  if depth > array.depth_used then
    .error "cachearray has corrupt depth"
  else
    let depth2 := depth + texts.length
    if depth2 > YDB_MAX_SUBS then
      .error "would exceed maximum number of subscripts"
    else
      let subslen := get_subslen array depth
      let fin := appendLoop depth2 texts ⟨array, none, depth, subslen⟩
      match fin.forked with
      | some newarr =>
        .ok (st.set h.bufId fin.orig ++ [{ newarr with depth_used := depth2, depth := depth2 }],
             .owned st.length)
      | none =>
        let arr2 := { fin.orig with depth_used := depth2 }
        if depth2 = arr2.depth then
          .ok (st.set h.bufId { arr2 with depth := depth2 }, h)
        else
          .ok (st.set h.bufId arr2, .view h.bufId depth2 (h.flagsOf st))

/-- `cachearray_create` called with a varname string: defer to
`_cachearray_create` and push the result. -/
def cachearray_create_fromstring (st : Heap) (varname : Bytes)
    (subs : List Bytes) : Except String (Heap × Handle) :=
  match _cachearray_create varname subs with
  | .error e => .error e
  | .ok a => .ok (st ++ [a], .owned st.length)

/-- `cachearray_create` called with an existing cachearray: copy it first if it
is mutable (the copy's flags come back zeroed from `cachearray_new`), then
append any extra arguments. -/
def cachearray_create_fromcache (st : Heap) (h : Handle) (extra : List Bytes) :
    Except String (Heap × Handle) :=
  let depth := h.depthOf st
  let array := getBuf st h.bufId
  if Nat.land array.flags MUTABLE_BIT ≠ 0 then
    if depth > array.depth_used then
      .error "cachearray has corrupt depth"
    else
      let subslen := get_subslen array depth
      let a2 := _cachearray_realloc array depth subslen
      let st2 := st ++ [a2]
      let h2 := Handle.owned st.length
      if extra.isEmpty then .ok (st2, h2) else cachearray_append st2 h2 extra
  else
    if extra.isEmpty then .ok (st, h) else cachearray_append st h extra

/-- `cachearray_tomutable`: reallocate (copy) the live prefix and set the
mutable flag on the copy. -/
def cachearray_tomutable (st : Heap) (h : Handle) : Heap × Handle :=
  let depth := h.depthOf st
  let array := getBuf st h.bufId
  let subslen := get_subslen array depth
  let a2 := _cachearray_realloc array depth subslen
  let a3 := { a2 with flags := Nat.lor a2.flags MUTABLE_BIT }
  (st ++ [a3], .owned st.length)

/-- Overwrite the text of element `depth` in place through its descriptor
offset, then update the descriptor's lengths (tail of `cachearray_subst`). -/
def subWrite (a : CacheArray) (depth : Nat) (t : Bytes) : CacheArray :=
  let e := elemAt a depth
  let a2 := { a with subsdata := writeBytes a.subsdata e.addr t }
  setElemAt a2 depth { e with len_used := t.length, len_alloc := t.length }

/-- `cachearray_subst`: replace the final subscript of a mutable cachearray,
reallocating (and re-flagging mutable) when the text region is too small. -/
def cachearray_subst (st : Heap) (h : Handle) (t : Bytes) :
    Except String (Heap × Handle) :=
  let depth := h.depthOf st
  let array := getBuf st h.bufId
  if Nat.land array.flags MUTABLE_BIT = 0 ∨ depth ≠ array.depth_used then
    .error "parameter must be a mutable cachearray"
  else
    let subslen := (elemAt array depth).addr
    if subslen + t.length > array.subsdata_alloc then
      let a2 := _cachearray_realloc array depth (subslen + t.length)
      let a3 := { a2 with flags := Nat.lor a2.flags MUTABLE_BIT }
      .ok (st ++ [subWrite a3 depth t], .owned st.length)
    else
      .ok (st.set h.bufId (subWrite array depth t), h)

/-- Result of `cachearray_subscript`: a returned string, a raised Lua error, or
an out-of-range memory access (the C code indexes `&array->varname + depth`
without a lower bound check once a negative argument has been rebased). -/
inductive SubsResult where
  | ok (s : Bytes)
  | err
  | oob
deriving Repr, DecidableEq

/-- `cachearray_subscript`: return the subscript text at the given depth
(0 = varname); a negative index counts back from the last subscript. -/
def cachearray_subscript (st : Heap) (h : Handle) (i : Int) : SubsResult :=
  let inherent : Int := (h.depthOf st : Int)
  let array := getBuf st h.bufId
  let depth := if i < 0 then inherent + 1 + i else i
  if depth > inherent then .err
  else if depth < 0 then .oob
  else .ok (readElemAt array depth.toNat)

/-- `cachearray_depth`: the handle's logical depth. -/
def cachearray_depth (st : Heap) (h : Handle) : Nat :=
  h.depthOf st

/-! `cachearray_tostring` renders each subscript with Lua's
`string.format(isnum and "%s" or "%q", sub)` where
`isnum = (tostring(tointeger(sub)) == sub)`.  The following definitions model
the pieces of the Lua runtime that this relies on (they are external
collaborators of cachearray.c, not part of it): decimal rendering of a Lua
integer, `lua_tointeger` on a string, and `%q` quoting from `lstrlib.c`. -/

/-- The decimal digit characters. -/
def digitChar (d : Nat) : Char :=
  match d with
  | 0 => '0' | 1 => '1' | 2 => '2' | 3 => '3' | 4 => '4'
  | 5 => '5' | 6 => '6' | 7 => '7' | 8 => '8' | _ => '9'

/-- Fuel-driven decimal rendering of a natural number (most significant digit
first).  Fuel `n+1` always suffices for `n`. -/
def natDigitsAux : Nat → Nat → List Char
  | 0, _ => []
  | fuel + 1, n =>
    if n < 10 then [digitChar n]
    else natDigitsAux fuel (n / 10) ++ [digitChar (n % 10)]

/-- Decimal digits of a natural number, no sign, no leading zeros. -/
def natDigits (n : Nat) : List Char :=
  natDigitsAux (n + 1) n

/-- Canonical decimal text of a Lua integer (what Lua's `tostring` produces for
an integer value, `LUAI_NUMFFORMAT` with `%d`). -/
def intText (n : Int) : Bytes :=
  if n < 0 then '-' :: natDigits (-n).toNat else natDigits n.toNat

/-- Numeric value of a decimal digit character, `none` for any other char. -/
def digitVal (c : Char) : Option Nat :=
  if c = '0' then some 0 else if c = '1' then some 1
  else if c = '2' then some 2 else if c = '3' then some 3
  else if c = '4' then some 4 else if c = '5' then some 5
  else if c = '6' then some 6 else if c = '7' then some 7
  else if c = '8' then some 8 else if c = '9' then some 9 else none

/-- Accumulating decimal reader: `none` on the first non-digit. -/
def readDecimal : List Char → Nat → Option Nat
  | [], acc => some acc
  | c :: cs, acc =>
    match digitVal c with
    | some d => readDecimal cs (acc * 10 + d)
    | none => none

/-- `lua_tointeger` applied to a string, restricted to plain decimal forms:
an optional minus sign followed by decimal digits, rejected when out of the
64-bit integer range; any other string converts to 0 (in Lua the conversion
fails and `lua_tointeger` returns 0).  Lua additionally accepts forms such as
hex, surrounding spaces, or exactly-integral float text; those convert to an
integer whose canonical decimal text differs from the original string, so for
the comparison `tostring(tointeger(s)) == s` made by `cachearray_tostring`
they behave exactly like the failure case modelled here. -/
def luaToInteger (s : Bytes) : Int :=
  match s with
  | [] => 0
  | c :: rest =>
    if c = '-' then
      match readDecimal rest 0 with
      | some a => if a ≤ 2 ^ 63 then -(a : Int) else 0
      | none => 0
    else
      match readDecimal (c :: rest) 0 with
      | some a => if a < 2 ^ 63 then (a : Int) else 0
      | none => 0

/-- The numeric test of `cachearray_tostring`:
`tostring(tointeger(sub)) == sub`. -/
def isNumString (s : Bytes) : Bool :=
  decide (intText (luaToInteger s) = s)

/-- Left-pad a digit string with zeros to width 3 (`%03d`). -/
def pad3 (l : List Char) : List Char :=
  List.replicate (3 - l.length) '0' ++ l

/-- Body of `addquoted` from Lua's lstrlib.c: escape quote, backslash and
newline with a backslash; render other control characters as `\d` or,
when the next character is a digit, zero-padded `\ddd`. -/
def quoteChars : List Char → List Char
  | [] => []
  | c :: cs =>
    if c = '"' ∨ c = '\\' ∨ c = '\n' then
      '\\' :: c :: quoteChars cs
    else if c.toNat < 32 ∨ c.toNat = 127 then
      '\\' :: ((match cs with
                | c2 :: _ => if (digitVal c2).isSome then pad3 (natDigits c.toNat)
                             else natDigits c.toNat
                | [] => natDigits c.toNat) ++ quoteChars cs)
    else c :: quoteChars cs

/-- Lua's `%q` format: the escaped text wrapped in double quotes. -/
def luaFormatQ (s : Bytes) : Bytes :=
  '"' :: quoteChars s ++ ['"']

/-- One subscript as rendered by the `cachearray_tostring` loop. -/
def renderSub (s : Bytes) : Bytes :=
  if isNumString s then s else luaFormatQ s

/-- Comma-join (the loop pushes a comma after every subscript and drops the
final one before concatenating). -/
def joinComma : List Bytes → Bytes
  | [] => []
  | [x] => x
  | x :: xs => x ++ ',' :: joinComma xs

/-- `cachearray_tostring`: render the first `depth` subscripts (default: the
handle's own depth), comma-joined, numeric-looking ones unquoted and the rest
`%q`-quoted; also return the varname text.  The depth argument must lie in
`[0, depth_used]`. -/
def cachearray_tostring (st : Heap) (h : Handle) (dep : Option Int) :
    Except String (Bytes × Bytes) :=
  let array := getBuf st h.bufId
  let depth : Int := dep.getD (h.depthOf st : Int)
  if depth < 0 ∨ depth > (array.depth_used : Int) then
    .error "not a valid node depth"
  else
    let n := depth.toNat
    if n = 0 then
      .ok ([], readElemAt array 0)
    else
      .ok (joinComma ((List.range n).map fun j => renderSub (readElemAt array (j + 1))),
           readElemAt array 0)

/-- `cachearray_flags`: the handle's flags field (no dereference). -/
def cachearray_flags (st : Heap) (h : Handle) : Nat :=
  h.flagsOf st

/-! ### Groundwork: pointwise lemmas about the byte/descriptor regions -/

theorem get?_drop' (l : List α) (o j : Nat) : (l.drop o).get? j = l.get? (o + j) := by
  induction l generalizing o j with
  | nil => simp
  | cons a as ih =>
    cases o with
    | zero => simp
    | succ o' => simpa [Nat.succ_add] using ih o' j

theorem get?_take' (l : List α) (n j : Nat) (h : j < n) :
    (l.take n).get? j = l.get? j := by
  induction l generalizing n j with
  | nil => simp
  | cons a as ih =>
    cases n with
    | zero => omega
    | succ n' =>
      cases j with
      | zero => simp
      | succ j' => simpa using ih n' j' (by omega)

theorem get?_take_ge (l : List α) (n j : Nat) (h : n ≤ j) :
    (l.take n).get? j = none := by
  apply List.get?_eq_none.mpr
  have := l.length_take n
  omega

theorem extractBytes_get? (d : List Char) (o n j : Nat) :
    (extractBytes d o n).get? j = if j < n then d.get? (o + j) else none := by
  unfold extractBytes
  by_cases h : j < n
  · rw [if_pos h, get?_take' _ _ _ h, get?_drop']
  · rw [if_neg h, get?_take_ge _ _ _ (by omega)]

theorem extractBytes_length (d : List Char) (o n : Nat) (h : o + n ≤ d.length) :
    (extractBytes d o n).length = n := by
  unfold extractBytes
  simp [List.length_take, List.length_drop]
  omega

theorem writeBytes_length (d : List Char) (off : Nat) (t : List Char)
    (h : off + t.length ≤ d.length) : (writeBytes d off t).length = d.length := by
  unfold writeBytes
  simp [List.length_take, List.length_drop]
  omega

theorem writeBytes_get?_lt (d : List Char) (off : Nat) (t : List Char) (j : Nat)
    (hj : j < off) (h : off ≤ d.length) :
    (writeBytes d off t).get? j = d.get? j := by
  unfold writeBytes
  have hlt : (d.take off).length = off := by simp [List.length_take]; omega
  rw [List.append_assoc, List.get?_append (by omega), get?_take' _ _ _ hj]

theorem writeBytes_get?_mid (d : List Char) (off : Nat) (t : List Char) (j : Nat)
    (h1 : off ≤ j) (h2 : j < off + t.length) (h : off ≤ d.length) :
    (writeBytes d off t).get? j = t.get? (j - off) := by
  unfold writeBytes
  have hlt : (d.take off).length = off := by simp [List.length_take]; omega
  rw [List.append_assoc, List.get?_append_right (by omega), hlt,
    List.get?_append (by omega)]

theorem writeBytes_get?_ge (d : List Char) (off : Nat) (t : List Char) (j : Nat)
    (h1 : off + t.length ≤ j) (h : off ≤ d.length) :
    (writeBytes d off t).get? j = d.get? j := by
  unfold writeBytes
  have hlt : (d.take off).length = off := by simp [List.length_take]; omega
  rw [List.append_assoc, List.get?_append_right (by omega), hlt,
    List.get?_append_right (by omega), get?_drop']
  congr 1
  omega

/-- Reading below a write leaves the bytes unchanged. -/
theorem extractBytes_writeBytes_of_le (d : List Char) (off : Nat) (t : List Char)
    (o n : Nat) (hon : o + n ≤ off) (h : off ≤ d.length) :
    extractBytes (writeBytes d off t) o n = extractBytes d o n := by
  apply List.ext
  intro j
  rw [extractBytes_get?, extractBytes_get?]
  by_cases hj : j < n
  · rw [if_pos hj, if_pos hj, writeBytes_get?_lt _ _ _ _ (by omega) h]
  · rw [if_neg hj, if_neg hj]

/-- Reading back exactly the written bytes. -/
theorem extractBytes_writeBytes_self (d : List Char) (off : Nat) (t : List Char)
    (h : off + t.length ≤ d.length) :
    extractBytes (writeBytes d off t) off t.length = t := by
  apply List.ext
  intro j
  rw [extractBytes_get?]
  by_cases hj : j < t.length
  · rw [if_pos hj, writeBytes_get?_mid _ _ _ _ (by omega) (by omega) (by omega)]
    congr 1
    omega
  · rw [if_neg hj, eq_comm, List.get?_eq_none]
    omega

/-- Two buffers that agree on a prefix yield the same reads inside it. -/
theorem extractBytes_congr_prefix (d1 d2 : List Char) (m o n : Nat)
    (hpre : ∀ j, j < m → d1.get? j = d2.get? j) (hon : o + n ≤ m) :
    extractBytes d1 o n = extractBytes d2 o n := by
  apply List.ext
  intro j
  rw [extractBytes_get?, extractBytes_get?]
  by_cases hj : j < n
  · rw [if_pos hj, if_pos hj, hpre _ (by omega)]
  · rw [if_neg hj, if_neg hj]

theorem padTo_get?_lt (l : List α) (n : Nat) (dflt : α) (j : Nat)
    (hj : j < l.length) : (padTo l n dflt).get? j = l.get? j := by
  unfold padTo
  rw [List.get?_append hj]

theorem padTo_length (l : List α) (n : Nat) (dflt : α) (h : l.length ≤ n) :
    (padTo l n dflt).length = n := by
  unfold padTo
  simp
  omega

theorem getD_eq_get?_getD (l : List α) (i : Nat) (d : α) :
    l.getD i d = (l.get? i).getD d := by
  simp [List.getD_eq_getElem?_getD, List.get?_eq_getElem?]

theorem getD_set_self (l : List α) (i : Nat) (a d : α) (h : i < l.length) :
    (l.set i a).getD i d = a := by
  rw [getD_eq_get?_getD, List.get?_set_eq]
  simp [List.get?_eq_getElem?, List.getElem?_eq_getElem, h]

theorem getD_set_ne (l : List α) (i j : Nat) (a d : α) (h : i ≠ j) :
    (l.set i a).getD j d = l.getD j d := by
  rw [getD_eq_get?_getD, getD_eq_get?_getD, List.get?_set_ne _ _ h]

theorem padTo_getD_lt (l : List α) (n : Nat) (dflt : α) (j : Nat) (d : α)
    (hj : j < l.length) : (padTo l n dflt).getD j d = l.getD j d := by
  rw [getD_eq_get?_getD, getD_eq_get?_getD, padTo_get?_lt _ _ _ _ hj]

theorem getD_take_lt (l : List α) (m j : Nat) (d : α) (hj : j < m) :
    (l.take m).getD j d = l.getD j d := by
  rw [getD_eq_get?_getD, getD_eq_get?_getD, get?_take' _ _ _ hj]

/-! ### Descriptor layout lemmas -/

/-- Total used text length of a descriptor list. -/
def sumLen (l : List YDesc) : Nat :=
  (l.map YDesc.len_used).sum

theorem sumLen_take_succ (l : List YDesc) (j : Nat) :
    sumLen (l.take (j + 1)) = sumLen (l.take j) + (l.getD j defaultDesc).len_used := by
  induction l generalizing j with
  | nil => simp [sumLen, defaultDesc]
  | cons d ds ih =>
    cases j with
    | zero => simp [sumLen]
    | succ j' =>
      simp only [List.take_succ_cons, List.getD_cons_succ, sumLen, List.map_cons,
        List.sum_cons]
      have := ih j'
      simp only [sumLen] at this
      omega

theorem sumLen_take_congr (l1 l2 : List YDesc) (j : Nat)
    (h : ∀ i, i < j → (l1.getD i defaultDesc).len_used = (l2.getD i defaultDesc).len_used) :
    sumLen (l1.take j) = sumLen (l2.take j) := by
  induction j with
  | zero => simp [sumLen]
  | succ j' ih =>
    rw [sumLen_take_succ, sumLen_take_succ, ih (fun i hi => h i (by omega)),
      h j' (by omega)]

theorem elemAt_subsdata (a : CacheArray) (x : List Char) (i : Nat) :
    elemAt { a with subsdata := x } i = elemAt a i := by
  cases i <;> rfl

theorem elemAt_eq_of (a b : CacheArray) (i : Nat)
    (h1 : a.varname = b.varname) (h2 : a.subs = b.subs) :
    elemAt a i = elemAt b i := by
  cases i <;> simp [elemAt, h1, h2]

theorem offsetAt_congr (a b : CacheArray) (i : Nat)
    (h : ∀ j, j < i → (elemAt a j).len_used = (elemAt b j).len_used) :
    offsetAt a i = offsetAt b i := by
  induction i with
  | zero => rfl
  | succ i' ih =>
    simp only [offsetAt]
    rw [ih (fun j hj => h j (by omega)), h i' (by omega)]

theorem offsetAt_mono (a : CacheArray) (j i : Nat) (h : j ≤ i) :
    offsetAt a j ≤ offsetAt a i := by
  induction i with
  | zero =>
    have : j = 0 := by omega
    subst this
    exact le_rfl
  | succ i' ih =>
    rcases Nat.lt_or_ge j (i' + 1) with h' | h'
    · exact le_trans (ih (by omega)) (by simp [offsetAt])
    · have : j = i' + 1 := by omega
      subst this
      exact le_rfl

theorem offsetAt_succ_sumLen (a : CacheArray) (j : Nat) :
    offsetAt a (j + 1) = a.varname.len_used + sumLen (a.subs.take j) := by
  induction j with
  | zero => simp [offsetAt, elemAt, sumLen]
  | succ j' ih =>
    show offsetAt a (j' + 1) + (elemAt a (j' + 1)).len_used = _
    rw [ih, sumLen_take_succ]
    have he : (elemAt a (j' + 1)).len_used = (a.subs.getD j' defaultDesc).len_used := rfl
    omega

theorem elemAt_setElemAt_ne (a : CacheArray) (k i : Nat) (d : YDesc) (h : i ≠ k) :
    elemAt (setElemAt a k d) i = elemAt a i := by
  cases k with
  | zero =>
    cases i with
    | zero => omega
    | succ j => rfl
  | succ k' =>
    cases i with
    | zero => rfl
    | succ j =>
      simp only [setElemAt, elemAt]
      exact getD_set_ne _ _ _ _ _ (by omega)

theorem elemAt_setElemAt_self (a : CacheArray) (k : Nat) (d : YDesc)
    (h : k = 0 ∨ k - 1 < a.subs.length) :
    elemAt (setElemAt a k d) k = d := by
  cases k with
  | zero => rfl
  | succ k' =>
    simp only [setElemAt, elemAt]
    exact getD_set_self _ _ _ _ (by omega)

theorem fixAddrs_length (n ofs : Nat) (l : List YDesc) :
    (fixAddrs n ofs l).length = l.length := by
  induction l generalizing n ofs with
  | nil => cases n <;> rfl
  | cons d ds ih =>
    cases n with
    | zero => rfl
    | succ n' => simp [fixAddrs, ih]

theorem fixAddrs_getD (n ofs : Nat) (l : List YDesc) (j : Nat) :
    (fixAddrs n ofs l).getD j defaultDesc =
      if j < n ∧ j < l.length then
        { l.getD j defaultDesc with addr := ofs + sumLen (l.take j) }
      else l.getD j defaultDesc := by
  induction l generalizing n ofs j with
  | nil =>
    cases n <;> simp [fixAddrs]
  | cons d ds ih =>
    cases n with
    | zero => simp [fixAddrs]
    | succ n' =>
      cases j with
      | zero => simp [fixAddrs, sumLen]
      | succ j' =>
        simp only [fixAddrs, List.getD_cons_succ, List.length_cons, ih]
        by_cases hc : j' < n' ∧ j' < ds.length
        · rw [if_pos hc, if_pos (by omega)]
          simp [sumLen]
          omega
        · rw [if_neg hc, if_neg (by omega)]

/-- Elements `0..k-1` of the buffer are laid out consecutively: descriptor
offsets are the cumulative text lengths, the live text fits the allocation,
and the allocated region sizes match the header fields. -/
def WFk (a : CacheArray) (k : Nat) : Prop :=
  a.subs.length = a.depth_alloc ∧ a.subsdata.length = a.subsdata_alloc ∧
  (∀ i, i < k → (elemAt a i).addr = offsetAt a i) ∧
  offsetAt a k ≤ a.subsdata_alloc

instance WFk.decidable (a : CacheArray) (k : Nat) : Decidable (WFk a k) := by
  unfold WFk
  exact inferInstance

theorem WFk_mono (a : CacheArray) (k j : Nat) (hW : WFk a k) (h : j ≤ k) :
    WFk a j := by
  obtain ⟨h1, h2, h3, h4⟩ := hW
  exact ⟨h1, h2, fun i hi => h3 i (by omega), le_trans (offsetAt_mono a j k h) h4⟩

/-- The write step shared by `createLoop` and `appendLoop`: store text `t` at
offset `subslen` and record descriptor `⟨subslen, |t|, |t|⟩` as element `k`. -/
def writeElem (a : CacheArray) (k subslen : Nat) (t : Bytes) : CacheArray :=
  setElemAt { a with subsdata := writeBytes a.subsdata subslen t } k
    ⟨subslen, t.length, t.length⟩

theorem writeElem_fields (a : CacheArray) (k subslen : Nat) (t : Bytes) :
    (writeElem a k subslen t).depth = a.depth ∧
    (writeElem a k subslen t).flags = a.flags ∧
    (writeElem a k subslen t).depth_used = a.depth_used ∧
    (writeElem a k subslen t).depth_alloc = a.depth_alloc ∧
    (writeElem a k subslen t).subsdata_alloc = a.subsdata_alloc ∧
    (writeElem a k subslen t).subs.length = a.subs.length ∧
    (writeElem a k subslen t).subsdata = writeBytes a.subsdata subslen t := by
  cases k <;> simp [writeElem, setElemAt]

/-- Writing the next element extends a consecutive layout by one element and
leaves every earlier element's text untouched. -/
theorem writeElem_spec (a : CacheArray) (k : Nat) (t : Bytes)
    (hW : WFk a k) (hcap : offsetAt a k + t.length ≤ a.subsdata_alloc)
    (hslot : k ≤ a.depth_alloc) :
    WFk (writeElem a k (offsetAt a k) t) (k + 1) ∧
    (∀ i, i < k → readElemAt (writeElem a k (offsetAt a k) t) i = readElemAt a i) ∧
    readElemAt (writeElem a k (offsetAt a k) t) k = t ∧
    offsetAt (writeElem a k (offsetAt a k) t) (k + 1) = offsetAt a k + t.length := by
  obtain ⟨h1, h2, h3, h4⟩ := hW
  set b := writeElem a k (offsetAt a k) t with hb
  obtain ⟨hf1, hf2, hf3, hf4, hf5, hf6, hf7⟩ := writeElem_fields a k (offsetAt a k) t
  have hwlen : offsetAt a k + t.length ≤ a.subsdata.length := by omega
  have helem_ne : ∀ i, i ≠ k → elemAt b i = elemAt a i := by
    intro i hi
    rw [hb, writeElem, elemAt_setElemAt_ne _ _ _ _ hi, elemAt_subsdata]
  have helem_self : elemAt b k = ⟨offsetAt a k, t.length, t.length⟩ := by
    rw [hb, writeElem, elemAt_setElemAt_self]
    rcases Nat.eq_zero_or_pos k with h | h
    · exact Or.inl h
    · exact Or.inr (by show k - 1 < a.subs.length; omega)
  have hofs : ∀ i, i ≤ k → offsetAt b i = offsetAt a i := by
    intro i hi
    exact offsetAt_congr _ _ _ (fun j hj => by rw [helem_ne j (by omega)])
  have hofs_succ : offsetAt b (k + 1) = offsetAt a k + t.length := by
    show offsetAt b k + (elemAt b k).len_used = _
    rw [hofs k le_rfl, helem_self]
  have hdatalen : b.subsdata.length = a.subsdata.length := by
    rw [hf7]
    exact writeBytes_length _ _ _ hwlen
  refine ⟨⟨by rw [hf6, hf4, h1], by rw [hdatalen, hf5, h2], ?_, by rw [hofs_succ, hf5]; omega⟩,
    ?_, ?_, hofs_succ⟩
  · intro i hik
    rcases Nat.lt_or_ge i k with h | h
    · rw [helem_ne i (by omega), hofs i (by omega)]
      exact h3 i h
    · have : i = k := by omega
      subst this
      rw [helem_self, hofs i le_rfl]
  · intro i hik
    unfold readElemAt
    rw [helem_ne i (by omega), hf7, h3 i hik]
    have hle : offsetAt a i + (elemAt a i).len_used ≤ offsetAt a k := by
      have : offsetAt a (i + 1) ≤ offsetAt a k := offsetAt_mono a (i + 1) k (by omega)
      simpa [offsetAt] using this
    exact extractBytes_writeBytes_of_le _ _ _ _ _ hle (by omega)
  · unfold readElemAt
    rw [helem_self, hf7]
    exact extractBytes_writeBytes_self _ _ _ hwlen

theorem fixAddrs_getD_len (n ofs : Nat) (l : List YDesc) (j : Nat) :
    ((fixAddrs n ofs l).getD j defaultDesc).len_used = (l.getD j defaultDesc).len_used := by
  rw [fixAddrs_getD]
  split <;> rfl

/-- `_cachearray_realloc` preserves a consecutive layout of `k` elements
(provided they fit the copied regions), zeroes the flags, applies the
overallocation policy to the new sizes, and carries `depth_used` across. -/
theorem realloc_pres (a : CacheArray) (nd nsl k : Nat)
    (hW : WFk a k) (hk1 : k ≤ nd + 1) (hk2 : k ≤ a.depth_alloc + 1)
    (hnsl : offsetAt a k ≤ nsl) :
    WFk (_cachearray_realloc a nd nsl) k ∧
    (∀ i, i < k → readElemAt (_cachearray_realloc a nd nsl) i = readElemAt a i) ∧
    (∀ i, i < k → (elemAt (_cachearray_realloc a nd nsl) i).len_used =
      (elemAt a i).len_used) ∧
    offsetAt (_cachearray_realloc a nd nsl) k = offsetAt a k ∧
    (_cachearray_realloc a nd nsl).depth_alloc = nd + ARRAY_OVERALLOC ∧
    (_cachearray_realloc a nd nsl).subsdata_alloc =
      nsl + ARRAY_OVERALLOC * YDB_TYPICAL_SUBLEN ∧
    (_cachearray_realloc a nd nsl).depth = nd ∧
    (_cachearray_realloc a nd nsl).flags = 0 ∧
    (_cachearray_realloc a nd nsl).depth_used = a.depth_used := by
  obtain ⟨h1, h2, h3, h4⟩ := hW
  have hbeq : _cachearray_realloc a nd nsl = _cachearray_updateaddr
      { depth := nd
        flags := 0
        subsdata_alloc := nsl + ARRAY_OVERALLOC * YDB_TYPICAL_SUBLEN
        depth_alloc := nd + ARRAY_OVERALLOC
        depth_used := a.depth_used
        varname := a.varname
        subs := padTo (a.subs.take (if 1 + a.depth_alloc < nd then a.depth_alloc else nd))
          (nd + ARRAY_OVERALLOC) defaultDesc
        subsdata := padTo
          (a.subsdata.take (if a.subsdata_alloc < nsl then a.subsdata_alloc else nsl))
          (nsl + ARRAY_OVERALLOC * YDB_TYPICAL_SUBLEN) ' ' } := rfl
  rw [hbeq]
  set cd := if 1 + a.depth_alloc < nd then a.depth_alloc else nd with hcddef
  set cs := if a.subsdata_alloc < nsl then a.subsdata_alloc else nsl with hcsdef
  set b := _cachearray_updateaddr
      { depth := nd
        flags := 0
        subsdata_alloc := nsl + ARRAY_OVERALLOC * YDB_TYPICAL_SUBLEN
        depth_alloc := nd + ARRAY_OVERALLOC
        depth_used := a.depth_used
        varname := a.varname
        subs := padTo (a.subs.take cd) (nd + ARRAY_OVERALLOC) defaultDesc
        subsdata := padTo (a.subsdata.take cs)
          (nsl + ARRAY_OVERALLOC * YDB_TYPICAL_SUBLEN) ' ' } with hb
  have hcd : k ≤ cd + 1 := by
    rw [hcddef]
    split <;> omega
  have hcd2 : cd ≤ nd + ARRAY_OVERALLOC := by
    rw [hcddef]
    split <;> omega
  have hcs1 : offsetAt a k ≤ cs := by
    rw [hcsdef]
    split <;> omega
  have hcs2 : cs ≤ nsl := by
    rw [hcsdef]
    split <;> omega
  have hcs3 : cs ≤ a.subsdata.length := by
    rw [hcsdef, h2]
    split <;> omega
  -- field values of b
  have hbsubs : b.subs = fixAddrs (min a.depth_used (nd + ARRAY_OVERALLOC))
      a.varname.len_used (padTo (a.subs.take cd) (nd + ARRAY_OVERALLOC) defaultDesc) := rfl
  have hbvar : b.varname = { a.varname with addr := 0 } := rfl
  have hbdata : b.subsdata = padTo (a.subsdata.take cs)
      (nsl + ARRAY_OVERALLOC * YDB_TYPICAL_SUBLEN) ' ' := rfl
  have hbda : b.depth_alloc = nd + ARRAY_OVERALLOC := rfl
  have hbsa : b.subsdata_alloc = nsl + ARRAY_OVERALLOC * YDB_TYPICAL_SUBLEN := rfl
  have hbd : b.depth = nd := rfl
  have hbf : b.flags = 0 := rfl
  have hbdu : b.depth_used = a.depth_used := rfl
  -- the padded/copied descriptor list restricted to the live window
  have hcsubsD : ∀ j, j < k - 1 →
      (padTo (a.subs.take cd) (nd + ARRAY_OVERALLOC) defaultDesc).getD j defaultDesc =
        a.subs.getD j defaultDesc := by
    intro j hj
    have hjl : j < (a.subs.take cd).length := by
      simp [List.length_take]
      constructor <;> omega
    rw [padTo_getD_lt _ _ _ _ _ hjl, getD_take_lt _ _ _ _ (by omega)]
  -- byte agreement on the copied window
  have hdataD : ∀ j, j < cs → b.subsdata.get? j = a.subsdata.get? j := by
    intro j hj
    have hjl : j < (a.subsdata.take cs).length := by
      simp [List.length_take]
      omega
    rw [hbdata, padTo_get?_lt _ _ _ _ hjl, get?_take' _ _ _ hj]
  -- element lengths survive
  have hlen_eq : ∀ i, i < k → (elemAt b i).len_used = (elemAt a i).len_used := by
    intro i hi
    cases i with
    | zero => rfl
    | succ j =>
      show ((b.subs).getD j defaultDesc).len_used = _
      rw [hbsubs, fixAddrs_getD_len, hcsubsD j (by omega)]
      rfl
  have hofs_eq : ∀ i, i ≤ k → offsetAt b i = offsetAt a i := by
    intro i hi
    exact offsetAt_congr _ _ _ (fun j hj => hlen_eq j (by omega))
  -- descriptor offsets are the cumulative sums
  have haddr_b : ∀ i, i < k → (elemAt b i).addr = offsetAt b i := by
    intro i hi
    cases i with
    | zero => rfl
    | succ j =>
      show ((b.subs).getD j defaultDesc).addr = _
      rw [hbsubs, fixAddrs_getD]
      split
      · have hsum : sumLen ((padTo (a.subs.take cd) (nd + ARRAY_OVERALLOC)
            defaultDesc).take j) = sumLen (b.subs.take j) := by
          apply sumLen_take_congr
          intro i hij
          rw [hbsubs, fixAddrs_getD_len]
        show a.varname.len_used + _ = _
        rw [hsum, offsetAt_succ_sumLen b, hbvar]
      · rw [hcsubsD j (by omega)]
        have := h3 (j + 1) hi
        show (elemAt a (j + 1)).addr = _
        rw [this, hofs_eq (j + 1) (by omega)]
  -- texts survive
  have hread : ∀ i, i < k → readElemAt b i = readElemAt a i := by
    intro i hi
    unfold readElemAt
    rw [haddr_b i hi, hlen_eq i hi, hofs_eq i (by omega), h3 i hi]
    apply extractBytes_congr_prefix _ _ cs
    · exact hdataD
    · have : offsetAt a (i + 1) ≤ offsetAt a k := offsetAt_mono a (i + 1) k (by omega)
      simp only [offsetAt] at this
      omega
  have hbslen : b.subs.length = nd + ARRAY_OVERALLOC := by
    rw [hbsubs, fixAddrs_length, padTo_length]
    simp [List.length_take]
    omega
  have hbdlen : b.subsdata.length = nsl + ARRAY_OVERALLOC * YDB_TYPICAL_SUBLEN := by
    rw [hbdata, padTo_length]
    simp [List.length_take]
    omega
  refine ⟨⟨by rw [hbslen, hbda], by rw [hbdlen, hbsa], haddr_b, ?_⟩,
    hread, hlen_eq, hofs_eq k le_rfl, hbda, hbsa, hbd, hbf, hbdu⟩
  rw [hofs_eq k le_rfl, hbsa]
  omega

theorem offsetAt_eq_of (a b : CacheArray) (i : Nat)
    (h1 : a.varname = b.varname) (h2 : a.subs = b.subs) :
    offsetAt a i = offsetAt b i :=
  offsetAt_congr a b i (fun j _ => by rw [elemAt_eq_of a b j h1 h2])

theorem readElemAt_eq_of (a b : CacheArray) (i : Nat)
    (h1 : a.varname = b.varname) (h2 : a.subs = b.subs)
    (h3 : a.subsdata = b.subsdata) :
    readElemAt a i = readElemAt b i := by
  unfold readElemAt
  rw [elemAt_eq_of a b i h1 h2, h3]

theorem WFk_eq_of (a b : CacheArray) (k : Nat)
    (h1 : a.varname = b.varname) (h2 : a.subs = b.subs)
    (h3 : a.subsdata = b.subsdata) (h4 : a.depth_alloc = b.depth_alloc)
    (h5 : a.subsdata_alloc = b.subsdata_alloc) (hW : WFk a k) : WFk b k := by
  obtain ⟨w1, w2, w3, w4⟩ := hW
  refine ⟨by rw [← h2, ← h4]; exact w1, by rw [← h3, ← h5]; exact w2, ?_, ?_⟩
  · intro i hi
    rw [← elemAt_eq_of a b i h1 h2, ← offsetAt_eq_of a b i h1 h2]
    exact w3 i hi
  · rw [← offsetAt_eq_of a b k h1 h2, ← h5]
    exact w4

theorem getD_append_lt (l r : List α) (j : Nat) (d : α) (h : j < l.length) :
    (l ++ r).getD j d = l.getD j d := by
  rw [getD_eq_get?_getD, getD_eq_get?_getD, List.get?_append h]

theorem getD_append_len (l : List α) (x : α) (r : List α) (d : α) :
    (l ++ x :: r).getD l.length d = x := by
  rw [getD_eq_get?_getD, List.get?_append_right le_rfl]
  simp

/-- Invariant of the `_cachearray_create` loop: after writing `done` the buffer
holds those texts consecutively; running the loop over the remaining `rest`
extends this to the full input, reallocating along the way as needed. -/
theorem createLoop_inv (depth : Nat) (rest : List Bytes) : ∀ (done : List Bytes)
    (a : CacheArray) (subslen : Nat) (realloced : Bool),
    done.length + rest.length = depth + 1 →
    WFk a done.length →
    subslen = offsetAt a done.length →
    (∀ i, i < done.length → readElemAt a i = done.getD i []) →
    a.depth_alloc = depth + ARRAY_OVERALLOC →
    a.flags = 0 →
    WFk (createLoop depth rest a done.length subslen realloced).1 (depth + 1) ∧
    (createLoop depth rest a done.length subslen realloced).2.1 =
      offsetAt (createLoop depth rest a done.length subslen realloced).1 (depth + 1) ∧
    (∀ i, i < depth + 1 →
      readElemAt (createLoop depth rest a done.length subslen realloced).1 i =
        (done ++ rest).getD i []) ∧
    (createLoop depth rest a done.length subslen realloced).1.depth_alloc =
      depth + ARRAY_OVERALLOC ∧
    (createLoop depth rest a done.length subslen realloced).1.flags = 0 := by
  induction rest with
  | nil =>
    intro done a subslen realloced htot hW hofs hreads hda hfl
    have hlen : done.length = depth + 1 := by simpa using htot
    simp only [createLoop]
    rw [hlen] at hW hofs hreads
    exact ⟨hW, hofs, by simpa using hreads, hda, hfl⟩
  | cons t rest' ih =>
    intro done a subslen realloced htot hW hofs hreads hda hfl
    have hdone_le : done.length ≤ depth := by
      simp only [List.length_cons] at htot
      omega
    -- one unfolding of the loop
    by_cases hgt : subslen + t.length > a.subsdata_alloc
    case pos =>
      have hstep : createLoop depth (t :: rest') a done.length subslen realloced =
          createLoop depth rest'
            (writeElem (_cachearray_realloc a depth (subslen + t.length))
              done.length subslen t)
            (done.length + 1) (subslen + t.length) true := by
        simp only [createLoop, if_pos hgt, writeElem]
      obtain ⟨rW, rreads, rlen, rofs, rda, rsa, rd, rf, rdu⟩ :=
        realloc_pres a depth (subslen + t.length) done.length hW (by omega)
          (by omega) (by rw [← hofs]; omega)
      set A := _cachearray_realloc a depth (subslen + t.length) with hA
      have hofsA : offsetAt A done.length = subslen := by rw [rofs, hofs]
      obtain ⟨wW, wreads, wlast, wofs⟩ := writeElem_spec A done.length t rW
        (by rw [hofsA, rsa]; unfold ARRAY_OVERALLOC YDB_TYPICAL_SUBLEN; omega)
        (by rw [rda]; omega)
      rw [hofsA] at wW wreads wlast wofs
      obtain ⟨f1, f2, f3, f4, f5, f6, f7⟩ :=
        writeElem_fields A done.length subslen t
      have hres := ih (done ++ [t]) (writeElem A done.length subslen t)
        (subslen + t.length) true
        (by simp at htot ⊢; omega)
        (by simpa using wW)
        (by simp only [List.length_append, List.length_cons, List.length_nil]
            rw [wofs])
        (by
          intro i hi
          simp only [List.length_append, List.length_cons, List.length_nil] at hi
          rcases Nat.lt_or_ge i done.length with h' | h'
          · rw [wreads i h', rreads i h', hreads i h',
              getD_append_lt _ _ _ _ h']
          · have : i = done.length := by omega
            subst this
            rw [wlast, getD_append_len])
        (by rw [f4, rda]) (by rw [f2, rf])
      simp only [List.length_append, List.length_cons, List.length_nil] at hres
      rw [hstep]
      refine ⟨hres.1, hres.2.1, ?_, hres.2.2.2⟩
      intro i hi
      rw [hres.2.2.1 i hi]
      congr 1
      simp
    case neg =>
      have hstep : createLoop depth (t :: rest') a done.length subslen realloced =
          createLoop depth rest' (writeElem a done.length subslen t)
            (done.length + 1) (subslen + t.length) realloced := by
        simp only [createLoop, if_neg hgt, writeElem]
      obtain ⟨wW, wreads, wlast, wofs⟩ := writeElem_spec a done.length t hW
        (by rw [← hofs]; omega) (by omega)
      rw [← hofs] at wW wreads wlast wofs
      obtain ⟨f1, f2, f3, f4, f5, f6, f7⟩ :=
        writeElem_fields a done.length subslen t
      have hres := ih (done ++ [t]) (writeElem a done.length subslen t)
        (subslen + t.length) realloced
        (by simp at htot ⊢; omega)
        (by simpa using wW)
        (by simp only [List.length_append, List.length_cons, List.length_nil]
            rw [wofs])
        (by
          intro i hi
          simp only [List.length_append, List.length_cons, List.length_nil] at hi
          rcases Nat.lt_or_ge i done.length with h' | h'
          · rw [wreads i h', hreads i h', getD_append_lt _ _ _ _ h']
          · have : i = done.length := by omega
            subst this
            rw [wlast, getD_append_len])
        (by rw [f4, hda]) (by rw [f2, hfl])
      simp only [List.length_append, List.length_cons, List.length_nil] at hres
      rw [hstep]
      refine ⟨hres.1, hres.2.1, ?_, hres.2.2.2⟩
      intro i hi
      rw [hres.2.2.1 i hi]
      congr 1
      simp

/-- `_cachearray_create` succeeds below the engine limit and yields a buffer
holding exactly the requested texts, with zeroed flags, the overallocation
slack, and `depth == depth_used == number of subscripts`. -/
theorem create_spec (varname : Bytes) (subs : List Bytes)
    (h : subs.length ≤ YDB_MAX_SUBS) :
    ∃ a, _cachearray_create varname subs = .ok a ∧
      WFk a (subs.length + 1) ∧
      a.depth = subs.length ∧ a.depth_used = subs.length ∧ a.flags = 0 ∧
      a.depth_alloc = subs.length + ARRAY_OVERALLOC ∧
      (∀ i, i ≤ subs.length → readElemAt a i = (varname :: subs).getD i []) := by
  have hn : ¬ subs.length > YDB_MAX_SUBS := Nat.not_lt.mpr h
  set a0 : CacheArray :=
    { depth := 0
      flags := 0
      subsdata_alloc := YDB_LARGE_SUBSLEN
      depth_alloc := subs.length + ARRAY_OVERALLOC
      depth_used := 0
      varname := defaultDesc
      subs := List.replicate (subs.length + ARRAY_OVERALLOC) defaultDesc
      subsdata := List.replicate YDB_LARGE_SUBSLEN ' ' } with ha0
  set r := createLoop subs.length (varname :: subs) a0 0 0 false with hrdef
  have hceq : _cachearray_create varname subs =
      .ok { (if r.2.2 then { r.1 with depth_used := subs.length }
             else _cachearray_realloc { r.1 with depth_used := subs.length }
               subs.length r.2.1)
            with depth := subs.length } := by
    unfold _cachearray_create
    rw [if_neg hn]
  have hW0 : WFk a0 0 := by
    refine ⟨by simp [ha0], by simp [ha0], fun i hi => absurd hi (by omega), by simp [offsetAt]⟩
  have hloop := createLoop_inv subs.length (varname :: subs) [] a0 0 false
    (by simp) hW0 rfl (fun i hi => by simp at hi) rfl rfl
  simp only [List.length_nil, List.nil_append] at hloop
  rw [← hrdef] at hloop
  obtain ⟨cW, cofs, creads, cda, cfl⟩ := hloop
  set a1 : CacheArray := { r.1 with depth_used := subs.length } with ha1
  have ha1v : a1.varname = r.1.varname := rfl
  have ha1s : a1.subs = r.1.subs := rfl
  have ha1d : a1.subsdata = r.1.subsdata := rfl
  have hW1 : WFk a1 (subs.length + 1) :=
    WFk_eq_of r.1 a1 _ ha1v.symm ha1s.symm ha1d.symm rfl rfl cW
  have hreads1 : ∀ i, i ≤ subs.length → readElemAt a1 i = (varname :: subs).getD i [] := by
    intro i hi
    rw [readElemAt_eq_of a1 r.1 i ha1v ha1s ha1d]
    exact creads i (by omega)
  cases hb : r.2.2
  case true =>
    rw [hb, if_pos rfl] at hceq
    refine ⟨_, hceq, ?_, rfl, rfl, cfl, cda, ?_⟩
    · exact WFk_eq_of a1 _ _ rfl rfl rfl rfl rfl hW1
    · intro i hi
      exact hreads1 i hi
  case false =>
    rw [hb, if_neg (by simp)] at hceq
    have hofs1 : r.2.1 = offsetAt a1 (subs.length + 1) := by
      rw [cofs, offsetAt_eq_of r.1 a1 _ ha1v.symm ha1s.symm]
    obtain ⟨rW, rreads, rlen, rofs, rda, rsa, rd, rf, rdu⟩ :=
      realloc_pres a1 subs.length r.2.1 (subs.length + 1) hW1 le_rfl
        (by show _ ≤ r.1.depth_alloc + 1; omega)
        (by rw [hofs1])
    set Y := _cachearray_realloc a1 subs.length r.2.1 with hY
    refine ⟨_, hceq, ?_, rfl, ?_, ?_, ?_, ?_⟩
    · exact WFk_eq_of Y _ _ rfl rfl rfl rfl rfl rW
    · show Y.depth_used = _
      rw [rdu]
    · show Y.flags = _
      rw [rf]
    · show Y.depth_alloc = _
      rw [rda]
    · intro i hi
      show readElemAt Y i = _
      rw [rreads i (by omega)]
      exact hreads1 i hi

/-! ### Heap lemmas and the single-append step -/

theorem getBuf_append_last (l : Heap) (y : CacheArray) :
    getBuf (l ++ [y]) l.length = y := by
  unfold getBuf
  rw [getD_eq_get?_getD, List.get?_append_right le_rfl]
  simp

theorem getBuf_append_lt (l : Heap) (y : CacheArray) (i : Nat) (h : i < l.length) :
    getBuf (l ++ [y]) i = getBuf l i := by
  unfold getBuf
  rw [getD_eq_get?_getD, getD_eq_get?_getD, List.get?_append h]

theorem getBuf_set_self (l : Heap) (i : Nat) (x : CacheArray) (h : i < l.length) :
    getBuf (l.set i x) i = x := by
  unfold getBuf
  exact getD_set_self _ _ _ _ h

theorem getBuf_set_ne (l : Heap) (i j : Nat) (x : CacheArray) (h : i ≠ j) :
    getBuf (l.set i x) j = getBuf l j := by
  unfold getBuf
  exact getD_set_ne _ _ _ _ _ h

/-- One iteration of `appendLoop` starting from an unforked state. -/
theorem appendLoop_one_none (d2 : Nat) (t : Bytes) (a : CacheArray)
    (depth subslen : Nat) :
    appendLoop d2 [t] ⟨a, none, depth, subslen⟩ =
      if Nat.land a.flags MUTABLE_BIT ≠ 0
          ∨ subslen + t.length > a.subsdata_alloc
          ∨ depth ≥ a.depth_alloc
          ∨ (a.depth_used > depth
              ∧ (t.length ≠ (a.subs.getD depth defaultDesc).len_used
                 ∨ extractBytes a.subsdata (a.subs.getD depth defaultDesc).addr
                     t.length ≠ t)) then
        ⟨a, some (writeElem
            (_cachearray_realloc a d2 (subslen + t.length + 0 * YDB_TYPICAL_SUBLEN))
            (depth + 1) subslen t), depth + 1, subslen + t.length⟩
      else
        ⟨writeElem a (depth + 1) subslen t, none, depth + 1, subslen + t.length⟩ := by
  by_cases hc : Nat.land a.flags MUTABLE_BIT ≠ 0
      ∨ subslen + t.length > a.subsdata_alloc
      ∨ depth ≥ a.depth_alloc
      ∨ (a.depth_used > depth
          ∧ (t.length ≠ (a.subs.getD depth defaultDesc).len_used
             ∨ extractBytes a.subsdata (a.subs.getD depth defaultDesc).addr
                 t.length ≠ t))
  · rw [if_pos hc]
    simp only [appendLoop, AppendSt.current, AppendSt.setCurrent,
      Option.getD_none, Option.getD_some, List.length_nil]
    rw [if_pos hc]
    rfl
  · rw [if_neg hc]
    simp only [appendLoop, AppendSt.current, AppendSt.setCurrent,
      Option.getD_none, Option.getD_some, List.length_nil]
    rw [if_neg hc]
    rfl

/-- Invariant along a create/append chain: the buffer the handle resolves to
holds exactly the texts `ts` (varname first) consecutively, the handle sits at
the frontier (`depth == depth_used`), nothing is mutable, and the buffer's
stored depth never exceeds the handle depth. -/
def ChainInv (st : Heap) (h : Handle) (ts : List Bytes) : Prop :=
  h.bufId < st.length ∧
  h.depthOf st + 1 = ts.length ∧
  (getBuf st h.bufId).depth_used = h.depthOf st ∧
  (getBuf st h.bufId).flags = 0 ∧
  h.flagsOf st = 0 ∧
  (getBuf st h.bufId).depth ≤ h.depthOf st ∧
  h.depthOf st ≤ (getBuf st h.bufId).depth_alloc ∧
  WFk (getBuf st h.bufId) ts.length ∧
  (∀ i, i < ts.length → readElemAt (getBuf st h.bufId) i = ts.getD i [])

/-- Appending one subscript to a chain handle succeeds and extends the chain,
whether it lands in place, defers to a view, or forks a new buffer. -/
theorem append_one_step (st : Heap) (h : Handle) (ts : List Bytes) (t : Bytes)
    (hInv : ChainInv st h ts) (hmax : h.depthOf st + 1 ≤ YDB_MAX_SUBS) :
    ∃ st2 h2, cachearray_append st h [t] = .ok (st2, h2) ∧
      ChainInv st2 h2 (ts ++ [t]) := by
  obtain ⟨hid, hlen, hdu, hfl, hhfl, hdle, hdal, hW, hreads⟩ := hInv
  have h1 : ¬ h.depthOf st > (getBuf st h.bufId).depth_used := by omega
  have h2 : ¬ h.depthOf st + 1 > YDB_MAX_SUBS := Nat.not_lt.mpr hmax
  have hWd : WFk (getBuf st h.bufId) (h.depthOf st + 1) := by rw [hlen]; exact hW
  have hsub : get_subslen (getBuf st h.bufId) (h.depthOf st) =
      offsetAt (getBuf st h.bufId) (h.depthOf st + 1) := by
    unfold get_subslen
    rw [hWd.2.2.1 (h.depthOf st) (by omega)]
    rfl
  have hc1 : ¬ Nat.land (getBuf st h.bufId).flags MUTABLE_BIT ≠ 0 := by
    rw [hfl]
    decide
  have hc4 : ¬ ((getBuf st h.bufId).depth_used > h.depthOf st ∧
      (t.length ≠ ((getBuf st h.bufId).subs.getD (h.depthOf st) defaultDesc).len_used
       ∨ extractBytes (getBuf st h.bufId).subsdata
           ((getBuf st h.bufId).subs.getD (h.depthOf st) defaultDesc).addr
           t.length ≠ t)) := by
    intro hx
    omega
  by_cases hc : get_subslen (getBuf st h.bufId) (h.depthOf st) + t.length >
      (getBuf st h.bufId).subsdata_alloc ∨ h.depthOf st ≥ (getBuf st h.bufId).depth_alloc
  case neg =>
    -- in-place extension, returned as a view with the new depth
    have hcond : ¬ (Nat.land (getBuf st h.bufId).flags MUTABLE_BIT ≠ 0
        ∨ get_subslen (getBuf st h.bufId) (h.depthOf st) + t.length >
            (getBuf st h.bufId).subsdata_alloc
        ∨ h.depthOf st ≥ (getBuf st h.bufId).depth_alloc
        ∨ ((getBuf st h.bufId).depth_used > h.depthOf st
            ∧ (t.length ≠ ((getBuf st h.bufId).subs.getD (h.depthOf st) defaultDesc).len_used
               ∨ extractBytes (getBuf st h.bufId).subsdata
                   ((getBuf st h.bufId).subs.getD (h.depthOf st) defaultDesc).addr
                   t.length ≠ t))) := by
      intro hx
      rcases hx with hx | hx | hx | hx
      · exact hc1 hx
      · exact hc (Or.inl hx)
      · exact hc (Or.inr hx)
      · exact hc4 hx
    obtain ⟨wW, wreads, wlast, wofs⟩ := writeElem_spec (getBuf st h.bufId)
      (h.depthOf st + 1) t hWd
      (by
        have := hWd.2.2.2
        push_neg at hc
        omega)
      (by omega)
    rw [← hsub] at wW wreads wlast wofs
    set a := getBuf st h.bufId with ha
    set sl := get_subslen a (h.depthOf st) with hsl
    set b2 := writeElem a (h.depthOf st + 1) sl t with hb2
    obtain ⟨f1, f2, f3, f4, f5, f6, f7⟩ := writeElem_fields a (h.depthOf st + 1) sl t
    have hne : ¬ (h.depthOf st + 1 = ({ b2 with depth_used := h.depthOf st + 1 } :
        CacheArray).depth) := by
      show ¬ (h.depthOf st + 1 = b2.depth)
      rw [f1]
      omega
    have happ : cachearray_append st h [t] =
        .ok (st.set h.bufId { b2 with depth_used := h.depthOf st + 1 },
             .view h.bufId (h.depthOf st + 1) (h.flagsOf st)) := by
      simp only [cachearray_append, List.length_cons, List.length_nil]
      rw [if_neg h1, if_neg h2, appendLoop_one_none, if_neg hcond]
      exact if_neg hne
    refine ⟨_, _, happ, ?_, ?_, ?_, ?_, ?_, ?_, ?_, ?_, ?_⟩
    · show h.bufId < (st.set h.bufId _).length
      simpa using hid
    · show h.depthOf st + 1 + 1 = (ts ++ [t]).length
      simp
      omega
    · show (getBuf (st.set h.bufId _) h.bufId).depth_used = _
      rw [getBuf_set_self _ _ _ hid]
      rfl
    · show (getBuf (st.set h.bufId _) h.bufId).flags = 0
      rw [getBuf_set_self _ _ _ hid]
      show b2.flags = 0
      rw [f2, hfl]
    · exact hhfl
    · show (getBuf (st.set h.bufId _) h.bufId).depth ≤ _
      rw [getBuf_set_self _ _ _ hid]
      show b2.depth ≤ h.depthOf st + 1
      rw [f1]
      omega
    · show _ ≤ (getBuf (st.set h.bufId _) h.bufId).depth_alloc
      rw [getBuf_set_self _ _ _ hid]
      show h.depthOf st + 1 ≤ b2.depth_alloc
      rw [f4]
      push_neg at hc
      omega
    · show WFk (getBuf (st.set h.bufId _) h.bufId) _
      rw [getBuf_set_self _ _ _ hid]
      refine WFk_eq_of b2 _ _ rfl rfl rfl rfl rfl ?_
      have : (ts ++ [t]).length = h.depthOf st + 1 + 1 := by simp; omega
      rw [this]
      exact wW
    · intro i hi
      show readElemAt (getBuf (st.set h.bufId _) h.bufId) i = _
      rw [getBuf_set_self _ _ _ hid]
      have hre : readElemAt { b2 with depth_used := h.depthOf st + 1 } i =
          readElemAt b2 i := readElemAt_eq_of _ b2 i rfl rfl rfl
      rw [hre]
      simp only [List.length_append, List.length_cons, List.length_nil] at hi
      rcases Nat.lt_or_ge i (h.depthOf st + 1) with h' | h'
      · rw [wreads i h', hreads i (by omega), getD_append_lt _ _ _ _ (by omega)]
      · have hieq : i = h.depthOf st + 1 := by omega
        subst hieq
        rw [wlast, hlen, getD_append_len]
  case pos =>
    -- fork: reallocate into a fresh buffer
    have hcond : Nat.land (getBuf st h.bufId).flags MUTABLE_BIT ≠ 0
        ∨ get_subslen (getBuf st h.bufId) (h.depthOf st) + t.length >
            (getBuf st h.bufId).subsdata_alloc
        ∨ h.depthOf st ≥ (getBuf st h.bufId).depth_alloc
        ∨ ((getBuf st h.bufId).depth_used > h.depthOf st
            ∧ (t.length ≠ ((getBuf st h.bufId).subs.getD (h.depthOf st) defaultDesc).len_used
               ∨ extractBytes (getBuf st h.bufId).subsdata
                   ((getBuf st h.bufId).subs.getD (h.depthOf st) defaultDesc).addr
                   t.length ≠ t)) := by
      rcases hc with hx | hx
      · exact Or.inr (Or.inl hx)
      · exact Or.inr (Or.inr (Or.inl hx))
    set a := getBuf st h.bufId with ha
    set sl := get_subslen a (h.depthOf st) with hsl
    obtain ⟨rW, rreads, rlen, rofs, rda, rsa, rd, rf, rdu⟩ :=
      realloc_pres a (h.depthOf st + 1) (sl + t.length + 0 * YDB_TYPICAL_SUBLEN)
        (h.depthOf st + 1) hWd (by omega) (by omega)
        (by rw [← hsub]; omega)
    set A := _cachearray_realloc a (h.depthOf st + 1)
      (sl + t.length + 0 * YDB_TYPICAL_SUBLEN) with hA
    have hofsA : offsetAt A (h.depthOf st + 1) = sl := by
      rw [rofs, hsub]
    obtain ⟨wW, wreads, wlast, wofs⟩ := writeElem_spec A (h.depthOf st + 1) t rW
      (by rw [hofsA, rsa]; unfold ARRAY_OVERALLOC YDB_TYPICAL_SUBLEN; omega)
      (by rw [rda]; omega)
    rw [hofsA] at wW wreads wlast wofs
    set b2 := writeElem A (h.depthOf st + 1) sl t with hb2
    obtain ⟨f1, f2, f3, f4, f5, f6, f7⟩ := writeElem_fields A (h.depthOf st + 1) sl t
    have happ : cachearray_append st h [t] =
        .ok (st.set h.bufId a ++
              [{ b2 with depth_used := h.depthOf st + 1, depth := h.depthOf st + 1 }],
             .owned st.length) := by
      simp only [cachearray_append, List.length_cons, List.length_nil]
      rw [if_neg h1, if_neg h2, appendLoop_one_none, if_pos hcond]
    have hlen2 : (st.set h.bufId a).length = st.length := by simp
    refine ⟨_, _, happ, ?_, ?_, ?_, ?_, ?_, ?_, ?_, ?_, ?_⟩
    · show st.length < _
      simp
    · show (getBuf _ st.length).depth + 1 = (ts ++ [t]).length
      rw [← hlen2, getBuf_append_last]
      show h.depthOf st + 1 + 1 = _
      simp
      omega
    · show (getBuf _ st.length).depth_used = (getBuf _ st.length).depth
      rw [← hlen2, getBuf_append_last]
    · show (getBuf _ st.length).flags = 0
      rw [← hlen2, getBuf_append_last]
      show b2.flags = 0
      rw [f2, rf]
    · show (getBuf _ st.length).flags = 0
      rw [← hlen2, getBuf_append_last]
      show b2.flags = 0
      rw [f2, rf]
    · show (getBuf _ st.length).depth ≤ (getBuf _ st.length).depth
      exact le_rfl
    · show (getBuf _ st.length).depth ≤ (getBuf _ st.length).depth_alloc
      rw [← hlen2, getBuf_append_last]
      show h.depthOf st + 1 ≤ b2.depth_alloc
      rw [f4, rda]
      omega
    · show WFk (getBuf _ st.length) _
      rw [← hlen2, getBuf_append_last]
      refine WFk_eq_of b2 _ _ rfl rfl rfl rfl rfl ?_
      have : (ts ++ [t]).length = h.depthOf st + 1 + 1 := by simp; omega
      rw [this]
      exact wW
    · intro i hi
      show readElemAt (getBuf _ st.length) i = _
      rw [← hlen2, getBuf_append_last]
      have hre : readElemAt
          { b2 with depth_used := h.depthOf st + 1, depth := h.depthOf st + 1 } i =
          readElemAt b2 i := readElemAt_eq_of _ b2 i rfl rfl rfl
      rw [hre]
      simp only [List.length_append, List.length_cons, List.length_nil] at hi
      rcases Nat.lt_or_ge i (h.depthOf st + 1) with h' | h'
      · rw [wreads i h', rreads i h', hreads i (by omega),
          getD_append_lt _ _ _ _ (by omega)]
      · have hieq : i = h.depthOf st + 1 := by omega
        subst hieq
        rw [wlast, hlen, getD_append_len]

/-- `cachearray_create` from a varname establishes the chain invariant. -/
theorem create_chain (st : Heap) (v : Bytes) (ss : List Bytes)
    (h : ss.length ≤ YDB_MAX_SUBS) :
    ∃ st2 h2, cachearray_create_fromstring st v ss = .ok (st2, h2) ∧
      ChainInv st2 h2 (v :: ss) ∧ h2.depthOf st2 = ss.length := by
  obtain ⟨a, hok, cW, cd, cdu, cf, cda, creads⟩ := create_spec v ss h
  have hga : getBuf (st ++ [a]) st.length = a := getBuf_append_last st a
  have hdepth : (Handle.owned st.length).depthOf (st ++ [a]) = ss.length := by
    show (getBuf (st ++ [a]) st.length).depth = ss.length
    rw [hga, cd]
  refine ⟨st ++ [a], .owned st.length, ?_, ⟨?_, ?_, ?_, ?_, ?_, ?_, ?_, ?_, ?_⟩, hdepth⟩
  · unfold cachearray_create_fromstring
    rw [hok]
  · show st.length < (st ++ [a]).length
    simp
  · rw [hdepth]
    simp
  · show (getBuf (st ++ [a]) st.length).depth_used = _
    rw [hga, cdu, hdepth]
  · show (getBuf (st ++ [a]) st.length).flags = 0
    rw [hga, cf]
  · show (getBuf (st ++ [a]) st.length).flags = 0
    rw [hga, cf]
  · show (getBuf (st ++ [a]) st.length).depth ≤ _
    rw [hga, cd, hdepth]
  · show _ ≤ (getBuf (st ++ [a]) st.length).depth_alloc
    rw [hga, cda, hdepth]
    unfold ARRAY_OVERALLOC
    omega
  · show WFk (getBuf (st ++ [a]) st.length) _
    rw [hga]
    show WFk a (ss.length + 1)
    exact cW
  · intro i hi
    show readElemAt (getBuf (st ++ [a]) st.length) i = _
    rw [hga]
    exact creads i (by simpa using Nat.lt_succ_iff.mp (by simpa using hi))

/-- Append each text of a list one at a time (one `cachearray_append` call per
subscript), as a caller descending a tree one level per call would. -/
def appendEach (st : Heap) (h : Handle) : List Bytes → Except String (Heap × Handle)
  | [] => .ok (st, h)
  | t :: ts =>
    match cachearray_append st h [t] with
    | .error e => .error e
    | .ok p => appendEach p.1 p.2 ts

theorem appendEach_chain : ∀ (ts2 : List Bytes) (st : Heap) (h : Handle)
    (ts : List Bytes), ChainInv st h ts →
    ts.length + ts2.length ≤ YDB_MAX_SUBS + 1 →
    ∃ st2 h2, appendEach st h ts2 = .ok (st2, h2) ∧ ChainInv st2 h2 (ts ++ ts2) := by
  intro ts2
  induction ts2 with
  | nil =>
    intro st h ts hInv hmax
    exact ⟨st, h, rfl, by simpa using hInv⟩
  | cons t rest ih =>
    intro st h ts hInv hmax
    obtain ⟨st1, h1, hok1, hInv1⟩ := append_one_step st h ts t hInv
      (by
        have := hInv.2.1
        simp only [List.length_cons] at hmax
        omega)
    obtain ⟨st2, h2, hok2, hInv2⟩ := ih st1 h1 (ts ++ [t]) hInv1
      (by simp only [List.length_append, List.length_cons, List.length_nil] at hmax ⊢; omega)
    refine ⟨st2, h2, ?_, by simpa using hInv2⟩
    unfold appendEach
    rw [hok1]
    exact hok2

/-- `cachearray_subscript` with a non-negative in-range index returns the text
element `i` currently references. -/
theorem subscript_eval (st : Heap) (h : Handle) (i : Nat)
    (hi : i ≤ h.depthOf st) :
    cachearray_subscript st h (i : Int) =
      .ok (readElemAt (getBuf st h.bufId) i) := by
  have hneg : ¬ ((i : Int) < 0) := by omega
  simp only [cachearray_subscript]
  rw [if_neg hneg, if_neg (by exact_mod_cast Nat.not_lt.mpr hi), if_neg hneg]
  rw [Int.toNat_natCast]

/-- On a chain handle, `cachearray_subscript` with an in-range non-negative
index returns the stored text. -/
theorem subscript_of_chain (st : Heap) (h : Handle) (ts : List Bytes) (i : Nat)
    (hInv : ChainInv st h ts) (hi : i ≤ h.depthOf st) :
    cachearray_subscript st h (i : Int) = .ok (ts.getD i []) := by
  obtain ⟨hid, hlen, hdu, hfl, hhfl, hdle, hdal, hW, hreads⟩ := hInv
  rw [subscript_eval st h i hi]
  exact congrArg SubsResult.ok (hreads i (by omega))

/-! ### Claim theorems -/

/-- Extract the heap and handle of a successful operation (used to build the
concrete states of witnesses and counterexamples). -/
def okOr (e : Except String (Heap × Handle)) : Heap × Handle :=
  e.toOption.getD ([], .owned 0)

/-- C1: starting from `Create(varname, subscripts)` and appending subscripts
one at a time, any number of times (up to the engine's fixed maximum), past
the buffer's `depth_alloc` and `subsdata_alloc` limits, the resulting handle's
`SubscriptAt(i)` returns exactly the text originally supplied for every index
`0..depth` (index 0 being the variable name), regardless of how many internal
reallocations occurred. -/
theorem C1_growth_correctness (v : Bytes) (ss ts : List Bytes)
    (hmax : ss.length + ts.length ≤ YDB_MAX_SUBS) :
    ∃ st h,
      (match cachearray_create_fromstring [] v ss with
       | .error e => Except.error e
       | .ok p => appendEach p.1 p.2 ts) = .ok (st, h) ∧
      cachearray_depth st h = ss.length + ts.length ∧
      (∀ i : Nat, i ≤ ss.length + ts.length →
        cachearray_subscript st h (i : Int) = .ok ((v :: (ss ++ ts)).getD i [])) := by
  obtain ⟨st1, h1, hok1, hInv1, hd1⟩ := create_chain [] v ss (by omega)
  obtain ⟨st2, h2, hok2, hInv2⟩ := appendEach_chain ts st1 h1 (v :: ss) hInv1
    (by simp only [List.length_cons]; omega)
  have hdep : h2.depthOf st2 = ss.length + ts.length := by
    have := hInv2.2.1
    simp only [List.cons_append, List.length_cons, List.length_append] at this
    omega
  refine ⟨st2, h2, ?_, hdep, ?_⟩
  · rw [hok1]
    exact hok2
  · intro i hi
    have hsub := subscript_of_chain st2 h2 ((v :: ss) ++ ts) i hInv2
      (by rw [hdep]; exact hi)
    rw [hsub]
    rw [List.cons_append]

/-- Witness for C1: a concrete run that starts from a buffer with
`depth_alloc = 5` spare slots and 51 bytes of text space, then appends seven
subscripts one at a time, one of them 60 bytes long, thus exceeding both
allocation limits. -/
theorem C1_growth_correctness_witness :
    (([] : List Bytes).length +
      ["s1".data, "s2".data, "s3".data, "s4".data, "s5".data, "s6".data,
       (List.replicate 60 'x')].length ≤ YDB_MAX_SUBS) ∧
    (∃ st h,
      (match cachearray_create_fromstring [] "v".data [] with
       | .error e => Except.error e
       | .ok p => appendEach p.1 p.2
           ["s1".data, "s2".data, "s3".data, "s4".data, "s5".data, "s6".data,
            (List.replicate 60 'x')]) = .ok (st, h) ∧
      cachearray_depth st h = ([] : List Bytes).length +
        ["s1".data, "s2".data, "s3".data, "s4".data, "s5".data, "s6".data,
         (List.replicate 60 'x')].length ∧
      (∀ i : Nat, i ≤ ([] : List Bytes).length +
          ["s1".data, "s2".data, "s3".data, "s4".data, "s5".data, "s6".data,
           (List.replicate 60 'x')].length →
        cachearray_subscript st h (i : Int) =
          .ok (("v".data :: (([] : List Bytes) ++
            ["s1".data, "s2".data, "s3".data, "s4".data, "s5".data, "s6".data,
             (List.replicate 60 'x')])).getD i []))) :=
  ⟨by decide, C1_growth_correctness "v".data []
    ["s1".data, "s2".data, "s3".data, "s4".data, "s5".data, "s6".data,
     (List.replicate 60 'x')] (by decide)⟩

/-- The concrete state used by several counterexamples:
`Create("v", ["a"])` on an empty heap. -/
def exCreateVA : Heap × Handle :=
  okOr (cachearray_create_fromstring [] "v".data ["a".data])

/-- C5 counterexample: on `Create("v", ["a"])` (depth 1), `SubscriptAt(h, -1)`
returns the last subscript "a" instead of reporting the domain error the claim
requires. -/
theorem C5_counterexample :
    cachearray_depth exCreateVA.1 exCreateVA.2 = 1 ∧
    cachearray_subscript exCreateVA.1 exCreateVA.2 (-1) =
      SubsResult.ok ("a".data) ∧
    SubsResult.ok ("a".data) ≠ SubsResult.err :=
  ⟨rfl, rfl, by decide⟩

/-- C5 amended: `SubscriptAt(h, i)` returns the text of the i-th descriptor
(0 = variable name) for `0 ≤ i ≤ depth` and reports a domain error for
`i > depth`; a negative `i` is first rebased to `depth + 1 + i` (counting back
from the last subscript), so `SubscriptAt(h, -1)` returns the last subscript
rather than an error, while an `i` below `-(depth+1)` leads to an out-of-range
descriptor access that is not reported as an error. -/
theorem C5_subscript_range (st : Heap) (h : Handle) (i : Int) :
    (0 ≤ i → i ≤ (h.depthOf st : Int) →
      cachearray_subscript st h i =
        .ok (readElemAt (getBuf st h.bufId) i.toNat)) ∧
    ((h.depthOf st : Int) < i → cachearray_subscript st h i = .err) ∧
    (i < 0 → -(h.depthOf st : Int) - 1 ≤ i →
      cachearray_subscript st h i =
        .ok (readElemAt (getBuf st h.bufId) ((h.depthOf st : Int) + 1 + i).toNat)) ∧
    (i < -(h.depthOf st : Int) - 1 → cachearray_subscript st h i = .oob) := by
  refine ⟨?_, ?_, ?_, ?_⟩
  · intro h0 hle
    simp only [cachearray_subscript]
    rw [if_neg (by omega), if_neg (by omega), if_neg (by omega)]
  · intro hgt
    simp only [cachearray_subscript]
    by_cases hneg : i < 0
    · omega
    · rw [if_neg hneg, if_pos hgt]
  · intro hneg hge
    simp only [cachearray_subscript]
    rw [if_pos hneg, if_neg (by omega), if_neg (by omega)]
  · intro hlt
    simp only [cachearray_subscript]
    have hneg : i < 0 := by omega
    rw [if_pos hneg, if_neg (by omega), if_pos (by omega)]

/-- Witness for C5: instantiating the amended theorem on the concrete
`Create("v", ["a"])` state at indices 1, 2, -1 and -3. -/
theorem C5_subscript_range_witness :
    cachearray_subscript exCreateVA.1 exCreateVA.2 1 =
      .ok (readElemAt (getBuf exCreateVA.1 exCreateVA.2.bufId) (1 : Int).toNat) ∧
    cachearray_subscript exCreateVA.1 exCreateVA.2 2 = .err ∧
    cachearray_subscript exCreateVA.1 exCreateVA.2 (-1) =
      .ok (readElemAt (getBuf exCreateVA.1 exCreateVA.2.bufId)
        (((exCreateVA.2.depthOf exCreateVA.1 : Int)) + 1 + (-1)).toNat) ∧
    cachearray_subscript exCreateVA.1 exCreateVA.2 (-3) = .oob :=
  ⟨(C5_subscript_range exCreateVA.1 exCreateVA.2 1).1 (by decide) (by decide),
   (C5_subscript_range exCreateVA.1 exCreateVA.2 2).2.1 (by decide),
   (C5_subscript_range exCreateVA.1 exCreateVA.2 (-1)).2.2.1 (by decide) (by decide),
   (C5_subscript_range exCreateVA.1 exCreateVA.2 (-3)).2.2.2 (by decide)⟩

/-- C6: a `Create` or `Append` whose resulting subscript count would exceed the
engine's fixed maximum (`YDB_MAX_SUBS`) reports a domain error; the check
precedes every allocation and write, so nothing is allocated and no buffer is
mutated (the error return carries no heap change). -/
theorem C6_max_subs (st : Heap) (h : Handle) (v : Bytes) (ss ts : List Bytes) :
    (ss.length > YDB_MAX_SUBS →
      cachearray_create_fromstring st v ss =
        .error "maximum number of subscripts exceeded") ∧
    (h.depthOf st ≤ (getBuf st h.bufId).depth_used →
      h.depthOf st + ts.length > YDB_MAX_SUBS →
      cachearray_append st h ts =
        .error "would exceed maximum number of subscripts") := by
  constructor
  · intro hgt
    unfold cachearray_create_fromstring _cachearray_create
    rw [if_pos hgt]
  · intro hok hgt
    simp only [cachearray_append]
    rw [if_neg (by omega), if_pos hgt]

/-- Witness for C6: creating with 32 subscripts, and appending 32 subscripts
to an empty-heap handle of depth 0, both report the domain error. -/
theorem C6_max_subs_witness :
    (List.replicate 32 "a".data).length > YDB_MAX_SUBS ∧
    cachearray_create_fromstring [] "v".data (List.replicate 32 "a".data) =
      .error "maximum number of subscripts exceeded" ∧
    cachearray_append [] (.owned 0) (List.replicate 32 "a".data) =
      .error "would exceed maximum number of subscripts" :=
  ⟨by decide,
   (C6_max_subs [] (.owned 0) "v".data (List.replicate 32 "a".data)
      (List.replicate 32 "a".data)).1 (by decide),
   (C6_max_subs [] (.owned 0) "v".data (List.replicate 32 "a".data)
      (List.replicate 32 "a".data)).2 (by decide) (by decide)⟩

/-- Shared concrete state: `Append(Create("v", ["a"]), ["b"])` extends buffer 0
in place (depth_used 2, stored depth still 1) and returns a view of depth 2. -/
def exAB : Heap × Handle :=
  okOr (cachearray_append exCreateVA.1 exCreateVA.2 ["b".data])

/-- C9 counterexample: on the shared buffer of `exAB` (depth_used 2), an
`Append` with no new subscripts through the original depth-1 owned handle
returns that same handle but truncates the buffer's `depth_used` from 2 to 1,
refuting the claim that depth_used is unchanged. -/
theorem C9_counterexample :
    (getBuf exAB.1 0).depth_used = 2 ∧
    (okOr (cachearray_append exAB.1 (.owned 0) [])).2 = Handle.owned 0 ∧
    (getBuf (okOr (cachearray_append exAB.1 (.owned 0) [])).1 0).depth_used = 1 ∧
    (2 : Nat) ≠ 1 :=
  ⟨rfl, rfl, rfl, by decide⟩

/-- C9 amended: `Append` with an empty subscript list never forks and never
reallocates; it returns the very same handle exactly when the handle's depth
equals the buffer's stored depth field (always the case for an owned handle),
and otherwise returns a fresh view of the same depth; in both cases it sets
the buffer's `depth_used` to the handle's depth — truncating it when the
buffer held deeper slots — and leaves the buffer's depth, flags, varname,
descriptors and text bytes unchanged. -/
theorem C9_append_empty (st : Heap) (h : Handle)
    (hok : h.depthOf st ≤ (getBuf st h.bufId).depth_used)
    (hmax : h.depthOf st ≤ YDB_MAX_SUBS) :
    cachearray_append st h [] =
      .ok (st.set h.bufId { getBuf st h.bufId with depth_used := h.depthOf st },
           if h.depthOf st = (getBuf st h.bufId).depth then h
           else .view h.bufId (h.depthOf st) (h.flagsOf st)) := by
  simp only [cachearray_append, List.length_nil, Nat.add_zero, appendLoop]
  rw [if_neg (by omega), if_neg (by omega)]
  by_cases hdd : h.depthOf st = (getBuf st h.bufId).depth
  · rw [if_pos hdd, if_pos (by exact hdd), hdd]
  · rw [if_neg hdd, if_neg (by exact hdd)]

/-- Witness for C9: the amended statement evaluated on the `exAB` state through
the original owned handle. -/
theorem C9_append_empty_witness :
    cachearray_append exAB.1 (.owned 0) [] =
      .ok (exAB.1.set 0 { getBuf exAB.1 0 with depth_used := 1 },
           if (1 : Nat) = (getBuf exAB.1 0).depth then Handle.owned 0
           else .view 0 1 ((Handle.owned 0).flagsOf exAB.1)) :=
  C9_append_empty exAB.1 (.owned 0) (by decide) (by decide)

theorem realloc_flags0 (a : CacheArray) (nd nsl : Nat) :
    (_cachearray_realloc a nd nsl).flags = 0 := rfl

theorem realloc_depth_eq (a : CacheArray) (nd nsl : Nat) :
    (_cachearray_realloc a nd nsl).depth = nd := rfl

theorem realloc_depth_alloc_eq (a : CacheArray) (nd nsl : Nat) :
    (_cachearray_realloc a nd nsl).depth_alloc = nd + ARRAY_OVERALLOC := rfl

theorem realloc_depth_used_eq (a : CacheArray) (nd nsl : Nat) :
    (_cachearray_realloc a nd nsl).depth_used = a.depth_used := rfl

/-- Shared concrete state: `ToMutable(Create("v", ["a"]))`. -/
def exMut : Heap × Handle :=
  cachearray_tomutable exCreateVA.1 exCreateVA.2

/-- C3 counterexample: the mutable copy made by `ToMutable(Create("v",["a"]))`
has `depth_used = 1` but `depth_alloc = 6` (ARRAY_OVERALLOC spare slots), so a
mutable PathBuffer does not satisfy `depth_alloc == depth_used` and the copy is
not "freshly sized with no spare capacity". -/
theorem C3_counterexample :
    Nat.land (getBuf exMut.1 exMut.2.bufId).flags MUTABLE_BIT ≠ 0 ∧
    (getBuf exMut.1 exMut.2.bufId).depth_used = 1 ∧
    (getBuf exMut.1 exMut.2.bufId).depth_alloc = 6 ∧
    (1 : Nat) ≠ 6 :=
  ⟨by decide, rfl, rfl, by decide⟩

/-- C3 amended: `ToMutable` copies the live prefix into a freshly allocated
buffer and sets the mutable flag, but the copy is overallocated like any other
reallocation (`depth_alloc = depth + ARRAY_OVERALLOC`, keeping the source's
`depth_used`), so mutable buffers do have spare descriptor slots; what forces
every `Append` off a mutable buffer to allocate a new PathBuffer is the
explicit mutable-flag test in `cachearray_append`, which forks on the very
first appended subscript regardless of capacity. -/
theorem C3_tomutable_overalloc (st : Heap) (h : Handle) :
    Nat.land (getBuf (cachearray_tomutable st h).1
        (cachearray_tomutable st h).2.bufId).flags MUTABLE_BIT ≠ 0 ∧
    (getBuf (cachearray_tomutable st h).1
        (cachearray_tomutable st h).2.bufId).depth = h.depthOf st ∧
    (getBuf (cachearray_tomutable st h).1
        (cachearray_tomutable st h).2.bufId).depth_alloc =
      h.depthOf st + ARRAY_OVERALLOC ∧
    (getBuf (cachearray_tomutable st h).1
        (cachearray_tomutable st h).2.bufId).depth_used =
      (getBuf st h.bufId).depth_used ∧
    (∀ t st2 h2,
      cachearray_append (cachearray_tomutable st h).1
        (cachearray_tomutable st h).2 [t] = .ok (st2, h2) →
      h2 = .owned (cachearray_tomutable st h).1.length ∧
      h2.bufId ≠ (cachearray_tomutable st h).2.bufId) := by
  have hg : getBuf (cachearray_tomutable st h).1
      (cachearray_tomutable st h).2.bufId =
      { _cachearray_realloc (getBuf st h.bufId) (h.depthOf st)
          (get_subslen (getBuf st h.bufId) (h.depthOf st)) with
        flags := Nat.lor (_cachearray_realloc (getBuf st h.bufId) (h.depthOf st)
          (get_subslen (getBuf st h.bufId) (h.depthOf st))).flags MUTABLE_BIT } := by
    show getBuf (st ++ [_]) st.length = _
    rw [getBuf_append_last]
  have hflags : (getBuf (cachearray_tomutable st h).1
      (cachearray_tomutable st h).2.bufId).flags = Nat.lor 0 MUTABLE_BIT := by
    rw [hg]
    rfl
  refine ⟨by rw [hflags]; decide, ?_, ?_, ?_, ?_⟩
  · rw [hg]
    rfl
  · rw [hg]
    rfl
  · rw [hg]
    rfl
  · intro t st2 h2 happ
    simp only [cachearray_append, List.length_cons, List.length_nil] at happ
    by_cases hcorr : (cachearray_tomutable st h).2.depthOf
        (cachearray_tomutable st h).1 >
        (getBuf (cachearray_tomutable st h).1
          (cachearray_tomutable st h).2.bufId).depth_used
    · rw [if_pos hcorr] at happ
      exact absurd happ (by simp)
    · rw [if_neg hcorr] at happ
      by_cases hmx : (cachearray_tomutable st h).2.depthOf
          (cachearray_tomutable st h).1 + 1 > YDB_MAX_SUBS
      · rw [if_pos hmx] at happ
        exact absurd happ (by simp)
      · rw [if_neg hmx, appendLoop_one_none,
          if_pos (Or.inl (by rw [hflags]; decide))] at happ
        have := (Except.ok.injEq _ _).mp happ
        rw [Prod.mk.injEq] at this
        refine ⟨this.2.symm, ?_⟩
        rw [← this.2]
        show (cachearray_tomutable st h).1.length ≠ st.length
        show (st ++ [_]).length ≠ st.length
        simp

/-- Witness for C3: appending "b" off the concrete mutable buffer forks into a
fresh owned buffer. -/
theorem C3_tomutable_overalloc_witness :
    (okOr (cachearray_append exMut.1 exMut.2 ["b".data])).2 =
      Handle.owned exMut.1.length ∧
    (okOr (cachearray_append exMut.1 exMut.2 ["b".data])).2.bufId ≠
      exMut.2.bufId := by
  have happ : cachearray_append exMut.1 exMut.2 ["b".data] =
      .ok ((okOr (cachearray_append exMut.1 exMut.2 ["b".data])).1,
           (okOr (cachearray_append exMut.1 exMut.2 ["b".data])).2) := rfl
  exact (C3_tomutable_overalloc exCreateVA.1 exCreateVA.2).2.2.2.2 "b".data _ _ happ

/-- C10: `cachearray_create` on an existing cachearray with no extra
subscripts returns the very same handle when the buffer is not mutable; when
it is mutable it returns a fresh owned copy whose mutable flag is unset and
whose variable name, depth and subscript texts at indices `0..depth` equal the
original's. -/
theorem C10_create_existing (st : Heap) (h : Handle) :
    (Nat.land (getBuf st h.bufId).flags MUTABLE_BIT = 0 →
      cachearray_create_fromcache st h [] = .ok (st, h)) ∧
    (Nat.land (getBuf st h.bufId).flags MUTABLE_BIT ≠ 0 →
      h.depthOf st ≤ (getBuf st h.bufId).depth_used →
      h.depthOf st ≤ (getBuf st h.bufId).depth_alloc →
      WFk (getBuf st h.bufId) (h.depthOf st + 1) →
      ∃ b2, cachearray_create_fromcache st h [] =
          .ok (st ++ [b2], .owned st.length) ∧
        Nat.land b2.flags MUTABLE_BIT = 0 ∧
        b2.depth = h.depthOf st ∧
        (∀ i, i ≤ h.depthOf st →
          readElemAt b2 i = readElemAt (getBuf st h.bufId) i)) := by
  constructor
  · intro hnm
    simp only [cachearray_create_fromcache]
    rw [if_neg (by omega), if_pos (by simp)]
  · intro hm hdu hda hW
    have hsub : get_subslen (getBuf st h.bufId) (h.depthOf st) =
        offsetAt (getBuf st h.bufId) (h.depthOf st + 1) := by
      unfold get_subslen
      rw [hW.2.2.1 (h.depthOf st) (by omega)]
      rfl
    obtain ⟨rW, rreads, rlen, rofs, rda, rsa, rd, rf, rdu⟩ :=
      realloc_pres (getBuf st h.bufId) (h.depthOf st)
        (get_subslen (getBuf st h.bufId) (h.depthOf st)) (h.depthOf st + 1) hW
        (by omega) (by omega) (by rw [hsub])
    refine ⟨_, ?_, ?_, rd, fun i hi => rreads i (by omega)⟩
    · simp only [cachearray_create_fromcache]
      rw [if_pos hm, if_neg (by omega), if_pos (by simp)]
    · rw [rf]
      decide

/-- Witness for C10: the non-mutable branch on `Create("v",["a"])` and the
mutable branch on its `ToMutable` copy. -/
theorem C10_create_existing_witness :
    cachearray_create_fromcache exCreateVA.1 exCreateVA.2 [] =
      .ok (exCreateVA.1, exCreateVA.2) ∧
    (∃ b2, cachearray_create_fromcache exMut.1 exMut.2 [] =
        .ok (exMut.1 ++ [b2], .owned exMut.1.length) ∧
      Nat.land b2.flags MUTABLE_BIT = 0 ∧
      b2.depth = exMut.2.depthOf exMut.1 ∧
      (∀ i, i ≤ exMut.2.depthOf exMut.1 →
        readElemAt b2 i = readElemAt (getBuf exMut.1 exMut.2.bufId) i)) :=
  ⟨(C10_create_existing exCreateVA.1 exCreateVA.2).1 (by decide),
   (C10_create_existing exMut.1 exMut.2).2 (by decide) (by decide) (by decide)
     (by decide)⟩

/-- C4: when `Append` extends an existing owned buffer in place (no fork: the
buffer is not mutable, capacity suffices, and no occupied slot diverges), the
resulting depth necessarily differs from the buffer's stored depth, and the
returned handle is a deferred view carrying the new depth while the buffer's
own depth field is left unchanged. -/
theorem C4_inplace_returns_view (st : Heap) (id : Nat) (t : Bytes)
    (hid : id < st.length)
    (hdu : (getBuf st id).depth ≤ (getBuf st id).depth_used)
    (hmax : (getBuf st id).depth + 1 ≤ YDB_MAX_SUBS)
    (hnf : ¬ (Nat.land (getBuf st id).flags MUTABLE_BIT ≠ 0
        ∨ get_subslen (getBuf st id) (getBuf st id).depth + t.length >
            (getBuf st id).subsdata_alloc
        ∨ (getBuf st id).depth ≥ (getBuf st id).depth_alloc
        ∨ ((getBuf st id).depth_used > (getBuf st id).depth
            ∧ (t.length ≠
                 ((getBuf st id).subs.getD (getBuf st id).depth defaultDesc).len_used
               ∨ extractBytes (getBuf st id).subsdata
                   ((getBuf st id).subs.getD (getBuf st id).depth defaultDesc).addr
                   t.length ≠ t)))) :
    ∃ st2, cachearray_append st (.owned id) [t] =
        .ok (st2, .view id ((getBuf st id).depth + 1) (getBuf st id).flags) ∧
      (getBuf st2 id).depth = (getBuf st id).depth := by
  have hdepth : (Handle.owned id).depthOf st = (getBuf st id).depth := rfl
  obtain ⟨f1, f2, f3, f4, f5, f6, f7⟩ := writeElem_fields (getBuf st id)
    ((getBuf st id).depth + 1) (get_subslen (getBuf st id) (getBuf st id).depth) t
  have hne : ¬ ((getBuf st id).depth + 1 =
      ({ writeElem (getBuf st id) ((getBuf st id).depth + 1)
          (get_subslen (getBuf st id) (getBuf st id).depth) t with
         depth_used := (getBuf st id).depth + 1 } : CacheArray).depth) := by
    show ¬ ((getBuf st id).depth + 1 = (writeElem _ _ _ _).depth)
    rw [f1]
    omega
  refine ⟨st.set id { writeElem (getBuf st id) ((getBuf st id).depth + 1)
      (get_subslen (getBuf st id) (getBuf st id).depth) t with
      depth_used := (getBuf st id).depth + 1 }, ?_, ?_⟩
  · simp only [cachearray_append, List.length_cons, List.length_nil, Handle.depthOf,
      Handle.bufId, Handle.flagsOf]
    rw [if_neg (by omega), if_neg (by omega), appendLoop_one_none, if_neg hnf]
    exact if_neg hne
  · rw [getBuf_set_self _ _ _ hid]
    show (writeElem (getBuf st id) ((getBuf st id).depth + 1)
      (get_subslen (getBuf st id) (getBuf st id).depth) t).depth = _
    rw [f1]

/-- Witness for C4: appending "b" to `Create("v", ["a"])` extends buffer 0 in
place and hands back a view of depth 2; the buffer keeps depth 1. -/
theorem C4_inplace_returns_view_witness :
    ∃ st2, cachearray_append exCreateVA.1 (.owned 0) ["b".data] =
        .ok (st2, .view 0 ((getBuf exCreateVA.1 0).depth + 1)
          (getBuf exCreateVA.1 0).flags) ∧
      (getBuf st2 0).depth = (getBuf exCreateVA.1 0).depth :=
  C4_inplace_returns_view exCreateVA.1 0 "b".data (by decide) (by decide)
    (by decide) (by decide)

/-- C2: an `Append` through a handle `q` that writes, at a depth already
occupied, text different from what that slot holds, forks into a brand-new
buffer; every observation through any other handle `p` over the same buffer —
its depth, its flags, and `SubscriptAt` at every index — is exactly what it
was before the operation. -/
theorem C2_fork_on_divergence (st : Heap) (p q : Handle) (t : Bytes)
    (hsame : p.bufId = q.bufId)
    (hqid : q.bufId < st.length)
    (hocc : (getBuf st q.bufId).depth_used > q.depthOf st)
    (hdiv : readElemAt (getBuf st q.bufId) (q.depthOf st + 1) ≠ t)
    (hmax : q.depthOf st + 1 ≤ YDB_MAX_SUBS) :
    ∃ st2 h2, cachearray_append st q [t] = .ok (st2, h2) ∧
      h2 = .owned st.length ∧
      h2.bufId ≠ p.bufId ∧
      getBuf st2 p.bufId = getBuf st p.bufId ∧
      p.depthOf st2 = p.depthOf st ∧
      p.flagsOf st2 = p.flagsOf st ∧
      (∀ i : Int, cachearray_subscript st2 p i = cachearray_subscript st p i) := by
  have hcode : t.length ≠
      ((getBuf st q.bufId).subs.getD (q.depthOf st) defaultDesc).len_used
      ∨ extractBytes (getBuf st q.bufId).subsdata
          ((getBuf st q.bufId).subs.getD (q.depthOf st) defaultDesc).addr
          t.length ≠ t := by
    by_contra hx
    push_neg at hx
    apply hdiv
    show extractBytes (getBuf st q.bufId).subsdata
      (elemAt (getBuf st q.bufId) (q.depthOf st + 1)).addr
      (elemAt (getBuf st q.bufId) (q.depthOf st + 1)).len_used = t
    show extractBytes (getBuf st q.bufId).subsdata
      ((getBuf st q.bufId).subs.getD (q.depthOf st) defaultDesc).addr
      ((getBuf st q.bufId).subs.getD (q.depthOf st) defaultDesc).len_used = t
    rw [← hx.1]
    exact hx.2
  set nb : CacheArray := { writeElem
      (_cachearray_realloc (getBuf st q.bufId) (q.depthOf st + 1)
        (get_subslen (getBuf st q.bufId) (q.depthOf st) + t.length +
          0 * YDB_TYPICAL_SUBLEN))
      (q.depthOf st + 1)
      (get_subslen (getBuf st q.bufId) (q.depthOf st)) t with
     depth_used := q.depthOf st + 1, depth := q.depthOf st + 1 } with hnb
  have happ : cachearray_append st q [t] =
      .ok (st.set q.bufId (getBuf st q.bufId) ++ [nb], .owned st.length) := by
    simp only [cachearray_append, List.length_cons, List.length_nil]
    rw [if_neg (by omega), if_neg (by omega), appendLoop_one_none,
      if_pos (Or.inr (Or.inr (Or.inr ⟨hocc, hcode⟩)))]
  have hgp : getBuf (st.set q.bufId (getBuf st q.bufId) ++ [nb]) p.bufId =
      getBuf st p.bufId := by
    rw [getBuf_append_lt _ _ _ (by simp; omega)]
    rw [hsame, getBuf_set_self _ _ _ hqid]
  have hdp : ∀ (st2 : Heap), getBuf st2 p.bufId = getBuf st p.bufId →
      p.depthOf st2 = p.depthOf st := by
    intro st2 hg
    cases p with
    | owned i => exact congrArg CacheArray.depth hg
    | view i d f => rfl
  have hfp : ∀ (st2 : Heap), getBuf st2 p.bufId = getBuf st p.bufId →
      p.flagsOf st2 = p.flagsOf st := by
    intro st2 hg
    cases p with
    | owned i => exact congrArg CacheArray.flags hg
    | view i d f => rfl
  refine ⟨_, _, happ, rfl, by show st.length ≠ p.bufId; omega, hgp,
    hdp _ hgp, hfp _ hgp, ?_⟩
  intro i
  simp only [cachearray_subscript]
  rw [hgp, hdp _ hgp]

/-- Witness for C2: on the `exAB` state (buffer 0 holds "v","a","b" with
depth_used 2), appending the divergent "z" through the depth-1 owned handle
forks to buffer 1, and the depth-2 view handle still observes everything it
did before. -/
theorem C2_fork_on_divergence_witness :
    ∃ st2 h2, cachearray_append exAB.1 (.owned 0) ["z".data] = .ok (st2, h2) ∧
      h2 = .owned exAB.1.length ∧
      h2.bufId ≠ (Handle.view 0 2 0).bufId ∧
      getBuf st2 (Handle.view 0 2 0).bufId =
        getBuf exAB.1 (Handle.view 0 2 0).bufId ∧
      (Handle.view 0 2 0).depthOf st2 = (Handle.view 0 2 0).depthOf exAB.1 ∧
      (Handle.view 0 2 0).flagsOf st2 = (Handle.view 0 2 0).flagsOf exAB.1 ∧
      (∀ i : Int, cachearray_subscript st2 (Handle.view 0 2 0) i =
        cachearray_subscript exAB.1 (Handle.view 0 2 0) i) :=
  C2_fork_on_divergence exAB.1 (Handle.view 0 2 0) (.owned 0) "z".data
    (by decide) (by decide) (by decide) (by decide) (by decide)

/-- `cachearray_subst` writes through the descriptor's stored offset, which
under a consecutive layout is exactly the `writeElem` step. -/
theorem subWrite_eq_writeElem (a : CacheArray) (depth : Nat) (t : Bytes)
    (ofs : Nat) (h : (elemAt a depth).addr = ofs) :
    subWrite a depth t = writeElem a depth ofs t := by
  simp only [subWrite, writeElem]
  rw [h]

/-- Invariant of a mutable cachearray handle of depth `d`: the flag is set,
the handle sits at `depth == depth_used == d`, and the first `d+1` elements
are laid out consecutively. -/
def MutInv (st : Heap) (h : Handle) (d : Nat) : Prop :=
  h.bufId < st.length ∧
  h.depthOf st = d ∧
  Nat.land (getBuf st h.bufId).flags MUTABLE_BIT ≠ 0 ∧
  (getBuf st h.bufId).depth_used = d ∧
  d ≤ (getBuf st h.bufId).depth_alloc ∧
  WFk (getBuf st h.bufId) (d + 1)

/-- `cachearray_tomutable` on a handle at its buffer's frontier produces a
mutable handle with the same element texts. -/
theorem tomutable_mutinv (st : Heap) (h : Handle)
    (hfr : (getBuf st h.bufId).depth_used = h.depthOf st)
    (hda : h.depthOf st ≤ (getBuf st h.bufId).depth_alloc)
    (hW : WFk (getBuf st h.bufId) (h.depthOf st + 1)) :
    MutInv (cachearray_tomutable st h).1 (cachearray_tomutable st h).2
      (h.depthOf st) ∧
    (∀ i, i ≤ h.depthOf st →
      readElemAt (getBuf (cachearray_tomutable st h).1
        (cachearray_tomutable st h).2.bufId) i =
      readElemAt (getBuf st h.bufId) i) := by
  have hsub : get_subslen (getBuf st h.bufId) (h.depthOf st) =
      offsetAt (getBuf st h.bufId) (h.depthOf st + 1) := by
    unfold get_subslen
    rw [hW.2.2.1 (h.depthOf st) (by omega)]
    rfl
  obtain ⟨rW, rreads, rlen, rofs, rda, rsa, rd, rf, rdu⟩ :=
    realloc_pres (getBuf st h.bufId) (h.depthOf st)
      (get_subslen (getBuf st h.bufId) (h.depthOf st)) (h.depthOf st + 1) hW
      (by omega) (by omega) (by rw [hsub])
  set A := _cachearray_realloc (getBuf st h.bufId) (h.depthOf st)
    (get_subslen (getBuf st h.bufId) (h.depthOf st)) with hA
  have hg : getBuf (cachearray_tomutable st h).1
      (cachearray_tomutable st h).2.bufId =
      { A with flags := Nat.lor A.flags MUTABLE_BIT } := by
    show getBuf (st ++ [_]) st.length = _
    rw [getBuf_append_last]
  constructor
  · refine ⟨by show st.length < (st ++ [_]).length; simp, ?_, ?_, ?_, ?_, ?_⟩
    · show (getBuf (cachearray_tomutable st h).1 st.length).depth = _
      rw [show (st.length : Nat) = (cachearray_tomutable st h).2.bufId from rfl, hg]
      show A.depth = _
      rw [rd]
    · rw [hg]
      show Nat.land (Nat.lor A.flags MUTABLE_BIT) MUTABLE_BIT ≠ 0
      rw [rf]
      decide
    · rw [hg]
      show A.depth_used = _
      rw [rdu, hfr]
    · rw [hg]
      show _ ≤ A.depth_alloc
      rw [rda]
      omega
    · rw [hg]
      exact WFk_eq_of A _ _ rfl rfl rfl rfl rfl rW
  · intro i hi
    rw [hg]
    have hre : readElemAt { A with flags := Nat.lor A.flags MUTABLE_BIT } i =
        readElemAt A i := readElemAt_eq_of _ A i rfl rfl rfl
    rw [hre]
    exact rreads i (by omega)

/-- One `cachearray_subst` step: replaces the text of element `d` (the last,
most recently appended slot), leaving everything below untouched, and keeps
the handle mutable at depth `d` (possibly moving to a reallocated buffer). -/
theorem subst_spec (st : Heap) (h : Handle) (d : Nat) (t : Bytes)
    (hInv : MutInv st h d) :
    ∃ st2 h2, cachearray_subst st h t = .ok (st2, h2) ∧ MutInv st2 h2 d ∧
      readElemAt (getBuf st2 h2.bufId) d = t ∧
      (∀ i, i < d → readElemAt (getBuf st2 h2.bufId) i =
        readElemAt (getBuf st h.bufId) i) := by
  obtain ⟨hid, hd, hm, hdu, hda, hW⟩ := hInv
  subst hd
  have haddr_d : (elemAt (getBuf st h.bufId) (h.depthOf st)).addr =
      offsetAt (getBuf st h.bufId) (h.depthOf st) :=
    hW.2.2.1 (h.depthOf st) (by omega)
  have hnerr : ¬ (Nat.land (getBuf st h.bufId).flags MUTABLE_BIT = 0
      ∨ h.depthOf st ≠ (getBuf st h.bufId).depth_used) := by
    rw [not_or]
    exact ⟨hm, by omega⟩
  by_cases hovf : (elemAt (getBuf st h.bufId) (h.depthOf st)).addr + t.length >
      (getBuf st h.bufId).subsdata_alloc
  case pos =>
    -- too long: reallocate, re-flag mutable, then overwrite in the new buffer
    have hend : offsetAt (getBuf st h.bufId) (h.depthOf st + 1) ≤
        (getBuf st h.bufId).subsdata_alloc := hW.2.2.2
    have hofs1 : offsetAt (getBuf st h.bufId) (h.depthOf st + 1) ≤
        (elemAt (getBuf st h.bufId) (h.depthOf st)).addr + t.length := by omega
    obtain ⟨rW, rreads, rlen, rofs, rda, rsa, rd, rf, rdu⟩ :=
      realloc_pres (getBuf st h.bufId) (h.depthOf st)
        ((elemAt (getBuf st h.bufId) (h.depthOf st)).addr + t.length)
        (h.depthOf st + 1) hW (by omega) (by omega) hofs1
    set A := _cachearray_realloc (getBuf st h.bufId) (h.depthOf st)
      ((elemAt (getBuf st h.bufId) (h.depthOf st)).addr + t.length) with hA
    have hW3 : WFk ({ A with flags := Nat.lor A.flags MUTABLE_BIT }) (h.depthOf st + 1) :=
      WFk_eq_of A _ _ rfl rfl rfl rfl rfl rW
    have haddr3 : (elemAt { A with flags := Nat.lor A.flags MUTABLE_BIT }
        (h.depthOf st)).addr =
        offsetAt { A with flags := Nat.lor A.flags MUTABLE_BIT } (h.depthOf st) :=
      hW3.2.2.1 (h.depthOf st) (by omega)
    have hsw : subWrite { A with flags := Nat.lor A.flags MUTABLE_BIT }
        (h.depthOf st) t =
        writeElem { A with flags := Nat.lor A.flags MUTABLE_BIT } (h.depthOf st)
          (offsetAt { A with flags := Nat.lor A.flags MUTABLE_BIT } (h.depthOf st)) t :=
      subWrite_eq_writeElem _ (h.depthOf st) t _ haddr3
    have hofs3 : offsetAt { A with flags := Nat.lor A.flags MUTABLE_BIT }
        (h.depthOf st) = offsetAt (getBuf st h.bufId) (h.depthOf st) := by
      rw [offsetAt_eq_of { A with flags := Nat.lor A.flags MUTABLE_BIT } A
        (h.depthOf st) rfl rfl]
      exact offsetAt_congr A (getBuf st h.bufId) _ (fun j hj => rlen j (by omega))
    obtain ⟨wW, wreads, wlast, wofs⟩ := writeElem_spec
      { A with flags := Nat.lor A.flags MUTABLE_BIT } (h.depthOf st) t
      (WFk_mono _ (h.depthOf st + 1) (h.depthOf st) hW3 (by omega))
      (by
        rw [hofs3, ← haddr_d]
        show _ ≤ A.subsdata_alloc
        rw [rsa]
        unfold ARRAY_OVERALLOC YDB_TYPICAL_SUBLEN
        omega)
      (by
        show h.depthOf st ≤ A.depth_alloc
        rw [rda]
        omega)
    obtain ⟨f1, f2, f3, f4, f5, f6, f7⟩ := writeElem_fields
      { A with flags := Nat.lor A.flags MUTABLE_BIT } (h.depthOf st)
      (offsetAt { A with flags := Nat.lor A.flags MUTABLE_BIT } (h.depthOf st)) t
    have hres : cachearray_subst st h t =
        .ok (st ++ [subWrite { A with flags := Nat.lor A.flags MUTABLE_BIT }
              (h.depthOf st) t],
             .owned st.length) := by
      simp only [cachearray_subst]
      rw [if_neg hnerr, if_pos hovf]
    have hg : getBuf (st ++ [subWrite { A with flags := Nat.lor A.flags MUTABLE_BIT }
        (h.depthOf st) t]) st.length =
        writeElem { A with flags := Nat.lor A.flags MUTABLE_BIT } (h.depthOf st)
          (offsetAt { A with flags := Nat.lor A.flags MUTABLE_BIT } (h.depthOf st)) t := by
      rw [getBuf_append_last, hsw]
    refine ⟨_, _, hres, ⟨by show st.length < (st ++ [_]).length; simp,
      ?_, ?_, ?_, ?_, ?_⟩, ?_, ?_⟩
    · show (getBuf (st ++ [_]) st.length).depth = h.depthOf st
      rw [hg, f1]
      show A.depth = h.depthOf st
      rw [rd]
    · show Nat.land (getBuf (st ++ [_]) st.length).flags MUTABLE_BIT ≠ 0
      rw [hg, f2]
      show Nat.land (Nat.lor A.flags MUTABLE_BIT) MUTABLE_BIT ≠ 0
      rw [rf]
      decide
    · show (getBuf (st ++ [_]) st.length).depth_used = h.depthOf st
      rw [hg, f3]
      show A.depth_used = h.depthOf st
      rw [rdu]
      omega
    · show h.depthOf st ≤ (getBuf (st ++ [_]) st.length).depth_alloc
      rw [hg, f4]
      show h.depthOf st ≤ A.depth_alloc
      rw [rda]
      omega
    · show WFk (getBuf (st ++ [_]) st.length) (h.depthOf st + 1)
      rw [hg]
      exact wW
    · show readElemAt (getBuf (st ++ [_]) st.length) (h.depthOf st) = t
      rw [hg]
      exact wlast
    · intro i hi
      show readElemAt (getBuf (st ++ [_]) st.length) i = _
      rw [hg, wreads i (by omega)]
      have hre : readElemAt { A with flags := Nat.lor A.flags MUTABLE_BIT } i =
          readElemAt A i := readElemAt_eq_of _ A i rfl rfl rfl
      rw [hre]
      exact rreads i (by omega)
  case neg =>
    -- fits: overwrite in place
    have hsw : subWrite (getBuf st h.bufId) (h.depthOf st) t =
        writeElem (getBuf st h.bufId) (h.depthOf st)
          (offsetAt (getBuf st h.bufId) (h.depthOf st)) t :=
      subWrite_eq_writeElem _ (h.depthOf st) t _ haddr_d
    obtain ⟨wW, wreads, wlast, wofs⟩ := writeElem_spec (getBuf st h.bufId)
      (h.depthOf st) t
      (WFk_mono _ (h.depthOf st + 1) (h.depthOf st) hW (by omega))
      (by rw [← haddr_d]; omega)
      (by omega)
    obtain ⟨f1, f2, f3, f4, f5, f6, f7⟩ := writeElem_fields (getBuf st h.bufId)
      (h.depthOf st) (offsetAt (getBuf st h.bufId) (h.depthOf st)) t
    have hres : cachearray_subst st h t =
        .ok (st.set h.bufId (subWrite (getBuf st h.bufId) (h.depthOf st) t), h) := by
      simp only [cachearray_subst]
      rw [if_neg hnerr, if_neg hovf]
    have hg : getBuf (st.set h.bufId (subWrite (getBuf st h.bufId)
        (h.depthOf st) t)) h.bufId =
        writeElem (getBuf st h.bufId) (h.depthOf st)
          (offsetAt (getBuf st h.bufId) (h.depthOf st)) t := by
      rw [getBuf_set_self _ _ _ hid, hsw]
    have hdp : h.depthOf (st.set h.bufId (subWrite (getBuf st h.bufId)
        (h.depthOf st) t)) = h.depthOf st := by
      cases h with
      | owned i => exact (congrArg CacheArray.depth hg).trans f1
      | view i dp f => rfl
    refine ⟨_, _, hres, ⟨by simpa using hid, hdp, ?_, ?_, ?_, ?_⟩, ?_, ?_⟩
    · rw [hg, f2]
      exact hm
    · rw [hg, f3]
      exact hdu
    · rw [hg, f4]
      exact hda
    · rw [hg]
      exact wW
    · rw [hg]
      exact wlast
    · intro i hi
      rw [hg]
      exact wreads i (by omega)

/-- Shared concrete state: `Create("v", ["a","b"])`, its mutable copy, then
`Substitute` with "x" and then "y". -/
def exVAB : Heap × Handle :=
  okOr (cachearray_create_fromstring [] "v".data ["a".data, "b".data])

def exMutVAB : Heap × Handle :=
  cachearray_tomutable exVAB.1 exVAB.2

def exSubX : Heap × Handle :=
  okOr (cachearray_subst exMutVAB.1 exMutVAB.2 "x".data)

def exSubY : Heap × Handle :=
  okOr (cachearray_subst exSubX.1 exSubX.2 "y".data)

/-- C8 counterexample: with `m = ToMutable(Create("v",["a","b"]))` (depth 2),
after `Substitute(m,"x"); Substitute(m,"y")` the value at index `depth-1 = 1`
is still "a", not "y" — the substitution targets index `depth` (the last
subscript; index 0 is the variable name), so the claim's
`SubscriptAt(m, depth-1) == y` is false. -/
theorem C8_counterexample :
    cachearray_depth exSubY.1 exSubY.2 = 2 ∧
    cachearray_subscript exSubY.1 exSubY.2 (2 - 1 : Int) =
      SubsResult.ok ("a".data) ∧
    SubsResult.ok ("a".data) ≠ SubsResult.ok ("y".data) ∧
    cachearray_subscript exSubY.1 exSubY.2 2 = SubsResult.ok ("y".data) :=
  ⟨rfl, rfl, by decide, rfl⟩

/-- C8 amended: `Substitute` requires the handle's buffer to be mutable and
the handle's depth to equal the buffer's `depth_used`, reporting a domain
error otherwise; for `m = ToMutable(h)` taken at its buffer's frontier,
`Substitute(m,x)` followed by `Substitute(m,y)` leaves `SubscriptAt(m, depth)`
(the last subscript; index 0 is the varname) equal to `y` and every index
`0..depth-1` unchanged. -/
theorem C8_substitute_last (st : Heap) (h : Handle) (x y : Bytes)
    (hfr : (getBuf st h.bufId).depth_used = h.depthOf st)
    (hda : h.depthOf st ≤ (getBuf st h.bufId).depth_alloc)
    (hW : WFk (getBuf st h.bufId) (h.depthOf st + 1)) :
    (∀ (st' : Heap) (h' : Handle) (t : Bytes),
      (Nat.land (getBuf st' h'.bufId).flags MUTABLE_BIT = 0 ∨
        h'.depthOf st' ≠ (getBuf st' h'.bufId).depth_used) →
      cachearray_subst st' h' t =
        .error "parameter must be a mutable cachearray") ∧
    (∃ st1 h1 st2 h2,
      cachearray_subst (cachearray_tomutable st h).1
        (cachearray_tomutable st h).2 x = .ok (st1, h1) ∧
      cachearray_subst st1 h1 y = .ok (st2, h2) ∧
      cachearray_depth st2 h2 = h.depthOf st ∧
      cachearray_subscript st2 h2 (h.depthOf st : Int) = .ok y ∧
      (∀ i : Nat, i < h.depthOf st →
        cachearray_subscript st2 h2 (i : Int) =
          cachearray_subscript (cachearray_tomutable st h).1
            (cachearray_tomutable st h).2 (i : Int))) := by
  constructor
  · intro st' h' t hcond
    simp only [cachearray_subst]
    rw [if_pos hcond]
  · obtain ⟨hMut, hMreads⟩ := tomutable_mutinv st h hfr hda hW
    obtain ⟨st1, h1, hok1, hInv1, hlast1, hpres1⟩ :=
      subst_spec (cachearray_tomutable st h).1 (cachearray_tomutable st h).2
        (h.depthOf st) x hMut
    obtain ⟨st2, h2, hok2, hInv2, hlast2, hpres2⟩ :=
      subst_spec st1 h1 (h.depthOf st) y hInv1
    refine ⟨st1, h1, st2, h2, hok1, hok2, hInv2.2.1, ?_, ?_⟩
    · rw [subscript_eval st2 h2 (h.depthOf st) hInv2.2.1.ge]
      exact congrArg SubsResult.ok hlast2
    · intro i hi
      rw [subscript_eval st2 h2 i (by rw [hInv2.2.1]; omega),
        subscript_eval (cachearray_tomutable st h).1 (cachearray_tomutable st h).2 i
          (by rw [hMut.2.1]; omega)]
      rw [hpres2 i hi, hpres1 i hi]

/-- Witness for C8: the error branch on a non-mutable handle, and the
substitute-twice scenario on `Create("v",["a","b"])`. -/
theorem C8_substitute_last_witness :
    cachearray_subst [] (.owned 0) "t".data =
      .error "parameter must be a mutable cachearray" ∧
    (∃ st1 h1 st2 h2,
      cachearray_subst (cachearray_tomutable exVAB.1 exVAB.2).1
        (cachearray_tomutable exVAB.1 exVAB.2).2 "x".data = .ok (st1, h1) ∧
      cachearray_subst st1 h1 "y".data = .ok (st2, h2) ∧
      cachearray_depth st2 h2 = exVAB.2.depthOf exVAB.1 ∧
      cachearray_subscript st2 h2 (exVAB.2.depthOf exVAB.1 : Int) =
        .ok ("y".data) ∧
      (∀ i : Nat, i < exVAB.2.depthOf exVAB.1 →
        cachearray_subscript st2 h2 (i : Int) =
          cachearray_subscript (cachearray_tomutable exVAB.1 exVAB.2).1
            (cachearray_tomutable exVAB.1 exVAB.2).2 (i : Int))) :=
  ⟨(C8_substitute_last exVAB.1 exVAB.2 "x".data "y".data (by decide) (by decide)
      (by decide)).1 [] (.owned 0) "t".data (by decide),
   (C8_substitute_last exVAB.1 exVAB.2 "x".data "y".data (by decide) (by decide)
      (by decide)).2⟩

/-! ### Decimal text lemmas for `cachearray_tostring` -/

theorem natDigitsAux_stable : ∀ (n f1 f2 : Nat), n < f1 → n < f2 →
    natDigitsAux f1 n = natDigitsAux f2 n := by
  intro n
  induction n using Nat.strong_induction_on with
  | _ n ih =>
    intro f1 f2 h1 h2
    cases f1 with
    | zero => omega
    | succ f1' =>
      cases f2 with
      | zero => omega
      | succ f2' =>
        by_cases hn : n < 10
        · simp [natDigitsAux, hn]
        · simp only [natDigitsAux, if_neg hn]
          rw [ih (n / 10) (by omega) f1' f2'
            (by omega) (by omega)]

theorem natDigits_lt (n : Nat) (h : n < 10) : natDigits n = [digitChar n] := by
  simp [natDigits, natDigitsAux, h]

theorem natDigits_ge (n : Nat) (h : 10 ≤ n) :
    natDigits n = natDigits (n / 10) ++ [digitChar (n % 10)] := by
  show natDigitsAux (n + 1) n = _
  cases hn : n + 1 with
  | zero => omega
  | succ f =>
    simp only [natDigitsAux, if_neg (by omega : ¬ n < 10)]
    rw [natDigitsAux_stable (n / 10) f (n / 10 + 1) (by omega) (by omega)]
    rfl

theorem digitVal_digitChar (d : Nat) (h : d < 10) :
    digitVal (digitChar d) = some d := by
  interval_cases d <;> rfl

theorem digitChar_ne_dash (d : Nat) (h : d < 10) : digitChar d ≠ '-' := by
  interval_cases d <;> decide

theorem natDigits_shape (n : Nat) :
    ∃ d l, natDigits n = digitChar d :: l ∧ d < 10 := by
  induction n using Nat.strong_induction_on with
  | _ n ih =>
    by_cases hn : n < 10
    · exact ⟨n, [], natDigits_lt n hn, hn⟩
    · obtain ⟨d, l, heq, hd⟩ := ih (n / 10) (by omega)
      refine ⟨d, l ++ [digitChar (n % 10)], ?_, hd⟩
      rw [natDigits_ge n (by omega), heq]
      rfl

theorem readDecimal_digits_append (n : Nat) : ∀ (r : List Char) (acc : Nat),
    readDecimal (natDigits n ++ r) acc =
      readDecimal r (acc * 10 ^ (natDigits n).length + n) := by
  induction n using Nat.strong_induction_on with
  | _ n ih =>
    intro r acc
    by_cases hn : n < 10
    · rw [natDigits_lt n hn]
      simp only [List.cons_append, List.nil_append, readDecimal,
        digitVal_digitChar n hn, List.length_cons, List.length_nil]
      rw [pow_one]
      rfl
    · rw [natDigits_ge n (by omega)]
      rw [List.append_assoc]
      rw [ih (n / 10) (by omega)]
      simp only [List.cons_append, List.nil_append, readDecimal,
        digitVal_digitChar (n % 10) (by omega)]
      have hlen : (natDigits (n / 10) ++ [digitChar (n % 10)]).length =
          (natDigits (n / 10)).length + 1 := by simp
      rw [hlen]
      congr 1
      have hsplit : (acc * 10 ^ (natDigits (n / 10)).length + n / 10) * 10 + n % 10 =
          acc * (10 ^ (natDigits (n / 10)).length * 10) + (10 * (n / 10) + n % 10) := by
        ring
      rw [hsplit, ← pow_succ]
      congr 1
      omega

theorem readDecimal_natDigits (n : Nat) :
    readDecimal (natDigits n) 0 = some n := by
  have := readDecimal_digits_append n [] 0
  simpa [readDecimal] using this

theorem luaToInteger_intText (n : Int) (h1 : -(2 ^ 63) ≤ n) (h2 : n < 2 ^ 63) :
    luaToInteger (intText n) = n := by
  by_cases hn : n < 0
  case neg =>
    have hco : intText n = natDigits n.toNat := by
      unfold intText
      rw [if_neg hn]
    obtain ⟨d, l, heq, hd⟩ := natDigits_shape n.toNat
    rw [hco, heq]
    simp only [luaToInteger]
    rw [if_neg (digitChar_ne_dash d hd)]
    rw [show digitChar d :: l = natDigits n.toNat from heq.symm]
    simp only [readDecimal_natDigits]
    rw [if_pos (by omega)]
    omega
  case pos =>
    have hco : intText n = '-' :: natDigits (-n).toNat := by
      unfold intText
      rw [if_pos hn]
    rw [hco]
    simp only [luaToInteger, readDecimal_natDigits, reduceIte]
    rw [if_pos (by omega)]
    omega

theorem luaToInteger_range (s : Bytes) :
    -(2 ^ 63) ≤ luaToInteger s ∧ luaToInteger s < 2 ^ 63 := by
  rcases s with _ | ⟨c, rest⟩
  · simp [luaToInteger]
  · simp only [luaToInteger]
    by_cases hc : c = '-'
    · rw [if_pos hc]
      rcases hr : readDecimal rest 0 with _ | a
      · simp only [hr]
        norm_num
      · simp only [hr]
        by_cases ha : a ≤ 2 ^ 63
        · rw [if_pos ha]
          omega
        · rw [if_neg ha]
          norm_num
    · rw [if_neg hc]
      rcases hr : readDecimal (c :: rest) 0 with _ | a
      · simp only [hr]
        norm_num
      · simp only [hr]
        by_cases ha : a < 2 ^ 63
        · rw [if_pos ha]
          omega
        · rw [if_neg ha]
          norm_num

/-- The numeric test made by `cachearray_tostring`
(`tostring(tointeger(sub)) == sub`) holds exactly on the canonical decimal
texts of the 64-bit integers. -/
theorem isNumString_iff (s : Bytes) :
    isNumString s = true ↔
      ∃ n : Int, -(2 ^ 63) ≤ n ∧ n < 2 ^ 63 ∧ s = intText n := by
  unfold isNumString
  rw [decide_eq_true_iff]
  constructor
  · intro heq
    exact ⟨luaToInteger s, (luaToInteger_range s).1, (luaToInteger_range s).2,
      heq.symm⟩
  · rintro ⟨n, hn1, hn2, rfl⟩
    rw [luaToInteger_intText n hn1 hn2]

/-- Shared concrete state: `Create("^acc", ["100", "bal"])`. -/
def exAcc : Heap × Handle :=
  okOr (cachearray_create_fromstring [] "^acc".data ["100".data, "bal".data])

/-- Shared concrete state: `Create("v", ["1.5"])`. -/
def exOne5 : Heap × Handle :=
  okOr (cachearray_create_fromstring [] "v".data ["1.5".data])

/-- Stated from the spec's words, for comparison with the code's numeric test:
"its text equals the canonical decimal string of some number".  A number is a
decimal numeral: an integer, or an integer part followed by a nonempty
fractional part of digits with no trailing zero. -/
def spec_isCanonicalNumberText (s : Bytes) : Prop :=
  (∃ n : Int, s = intText n) ∨
  (∃ n : Int, ∃ f : List Char, f ≠ [] ∧ (∀ c ∈ f, (digitVal c).isSome) ∧
    f.getLast? ≠ some '0' ∧ s = intText n ++ '.' :: f)

/-- C7 counterexample: "1.5" is the canonical decimal string of the number
1.5, yet `ToDisplayString(Create("v",["1.5"]), 1)` renders it quoted, so the
claimed "unquoted iff the text equals the canonical decimal string of some
number" fails: only integer texts render unquoted. -/
theorem C7_counterexample :
    spec_isCanonicalNumberText ("1.5".data) ∧
    cachearray_tostring exOne5.1 exOne5.2 (some 1) =
      .ok (luaFormatQ ("1.5".data), "v".data) ∧
    luaFormatQ ("1.5".data) ≠ "1.5".data :=
  ⟨Or.inr ⟨1, ['5'], by decide, by decide, by decide, by decide⟩,
   rfl, by decide⟩

/-- C7 amended: for every handle and every depth argument in
`[0, depth_used]`, `ToDisplayString` renders the first `depth` subscripts
comma-joined, each one unquoted exactly when it passes the numeric test
`tostring(tointeger(s)) == s`, `%q`-quoted otherwise; that numeric test holds
iff the text equals the canonical decimal string of some 64-bit integer (not
of an arbitrary number); concretely `Create("^acc", ["100","bal"])` renders at
depth 2 as `100,"bal"`. -/
theorem C7_tostring_quoting (st : Heap) (h : Handle) (d : Nat) :
    (d ≤ (getBuf st h.bufId).depth_used →
      cachearray_tostring st h (some (d : Int)) =
        .ok (joinComma ((List.range d).map fun j =>
              renderSub (readElemAt (getBuf st h.bufId) (j + 1))),
             readElemAt (getBuf st h.bufId) 0)) ∧
    (∀ s : Bytes, isNumString s = true ↔
      ∃ n : Int, -(2 ^ 63) ≤ n ∧ n < 2 ^ 63 ∧ s = intText n) ∧
    cachearray_tostring exAcc.1 exAcc.2 (some 2) =
      .ok ("100,\"bal\"".data, "^acc".data) := by
  refine ⟨?_, isNumString_iff, rfl⟩
  intro hd
  simp only [cachearray_tostring, Option.getD_some]
  rw [if_neg (by
    rw [not_or]
    constructor <;> omega)]
  rw [Int.toNat_natCast]
  by_cases hzero : d = 0
  · subst hzero
    rw [if_pos rfl]
    rfl
  · rw [if_neg hzero]

/-- Witness for C7: the general rendering shape evaluated at
`Create("^acc",["100","bal"])` with depth 2, and the numeric test holding on
"100" by exhibiting the integer 100. -/
theorem C7_tostring_quoting_witness :
    cachearray_tostring exAcc.1 exAcc.2 (some ((2 : Nat) : Int)) =
      .ok (joinComma ((List.range 2).map fun j =>
            renderSub (readElemAt (getBuf exAcc.1 exAcc.2.bufId) (j + 1))),
           readElemAt (getBuf exAcc.1 exAcc.2.bufId) 0) ∧
    isNumString ("100".data) = true :=
  ⟨(C7_tostring_quoting exAcc.1 exAcc.2 2).1 (by decide),
   ((C7_tostring_quoting exAcc.1 exAcc.2 2).2.1 ("100".data)).mpr
     ⟨100, by decide, by decide, by decide⟩⟩

end LuaYottadb
